import Mathlib

/-!
# SingleLinkedList — a memory-level embedding

The two source files, `main.cpp` and `single-linked-list.h`, each define the
class template `SingleLinkedList<Type>`.  The embedding keeps the pointer
structure of the code: a `Memory` is a table of cells indexed by address, a
cell is either a heap `Node` (made by `new Node`) or a `SingleLinkedList`
object (its `size_` and its embedded sentinel `head_`), a `Node*` is an
`Option Nat` (`none` is `nullptr`), and every member function is a function
from a memory to a fault or a result and a new memory.

Where the two files differ, the definition takes the file as a `Source`
argument.  `size_` is a `size_t`: it is stored as a `Nat` and `++size_` wraps from
`SIZE_MAX` to 0 (`inc_size_t`); `--size_` runs only behind `assert(!IsEmpty())`.
A loop that walks a chain of nodes takes as its bound the number of cells of
the memory, which no chain without a cycle exceeds.
-/

namespace SLL

/-- Ways in which an execution stops without a result. -/
inductive Fault where
  /-- an `assert` of the source failed -/
  | assertion
  /-- a null pointer was dereferenced -/
  | null_deref
  /-- an address that holds no live object was read, written or deleted -/
  | dangling
  /-- a loop of the model was given too few iterations -/
  | no_fuel
  deriving DecidableEq, Repr

/-- The file a definition is taken from. -/
inductive Source where
  | main_cpp
  | single_linked_list_h
  deriving DecidableEq, Repr

/-- `struct Node { Type value{}; Node* next_node = nullptr; }`. -/
structure Node (α : Type) where
  value : α
  next_node : Option Nat
  deriving DecidableEq, Repr

/-- Contents of one address: a heap node, or a list object, whose address is
also the address of its member `head_`. -/
inductive Cell (α : Type) where
  | node (n : Node α)
  | list (size_ : Nat) (head_ : Node α)
  deriving DecidableEq, Repr

/-- Memory: the cell at each address; `none` marks released storage, and
addresses from `length` on have never been handed out. -/
abbrev Memory (α : Type) := List (Option (Cell α))

/-- `class BasicIterator { Node* node_ = nullptr; }` (both iterator flavours). -/
structure BasicIterator where
  node_ : Option Nat
  deriving DecidableEq, Repr

variable {α : Type}

/-! ## Memory access -/

/-- `assert(c)`. -/
def assert (c : Bool) : Except Fault Unit :=
  if c then .ok () else .error .assertion

/-- An `assert` that only `main.cpp` has. -/
def Source.assert (src : Source) (c : Bool) : Except Fault Unit :=
  match src with
  | .main_cpp => SLL.assert c
  | .single_linked_list_h => .ok ()

/-- Read `*p` for a `Node* p`. -/
def load (m : Memory α) (p : Option Nat) : Except Fault (Node α) :=
  match p with
  | none => .error .null_deref
  | some a =>
    match m[a]? with
    | some (some (.node n)) => .ok n
    | some (some (.list _ hd)) => .ok hd
    | _ => .error .dangling

/-- Write `p->next_node = q`. -/
def storeNext (m : Memory α) (p : Option Nat) (q : Option Nat) : Except Fault (Memory α) :=
  match p with
  | none => .error .null_deref
  | some a =>
    match m[a]? with
    | some (some (.node n)) => .ok (m.set a (some (.node ⟨n.value, q⟩)))
    | some (some (.list s hd)) => .ok (m.set a (some (.list s ⟨hd.value, q⟩)))
    | _ => .error .dangling

/-- Read `this->size_`. -/
def loadSize (m : Memory α) (this : Nat) : Except Fault Nat :=
  match m[this]? with
  | some (some (.list s _)) => .ok s
  | _ => .error .dangling

/-- Write `this->size_ = s`. -/
def storeSize (m : Memory α) (this : Nat) (s : Nat) : Except Fault (Memory α) :=
  match m[this]? with
  | some (some (.list _ hd)) => .ok (m.set this (some (.list s hd)))
  | _ => .error .dangling

/-- Storage for a new object, at an address that has not been in use before. -/
def alloc (m : Memory α) (c : Cell α) : Nat × Memory α :=
  (m.length, m ++ [some c])

/-- `delete p`: a null pointer is ignored, a heap node is released. -/
def delete (m : Memory α) (p : Option Nat) : Except Fault (Memory α) :=
  match p with
  | none => .ok m
  | some a =>
    match m[a]? with
    | some (some (.node _)) => .ok (m.set a none)
    | _ => .error .dangling

/-- The storage of a list object is given back (end of its lifetime). -/
def release (m : Memory α) (this : Nat) : Except Fault (Memory α) :=
  match m[this]? with
  | some (some (.list _ _)) => .ok (m.set this none)
  | _ => .error .dangling

/-- `SIZE_MAX`, the largest value of a `size_t`, here 64 bits wide. -/
def SIZE_MAX : Nat := 18446744073709551615

/-- `++size_` on a `size_t`: unsigned arithmetic, which wraps from `SIZE_MAX` to 0. -/
def inc_size_t (size_ : Nat) : Nat :=
  (size_ + 1) % (SIZE_MAX + 1)

/-! ## BasicIterator -/

/-- `operator==`: `node_ == rhs.node_`. -/
def operator_eq (lhs rhs : BasicIterator) : Bool :=
  lhs.node_ == rhs.node_

/-- `operator!=`: `node_ != rhs.node_`. -/
def operator_ne (lhs rhs : BasicIterator) : Bool :=
  lhs.node_ != rhs.node_

/-- Pre-increment `operator++`: `node_ = node_->next_node`, after
`assert(node_ != nullptr)` in `main.cpp`. -/
def operator_pre_inc (src : Source) (it : BasicIterator) (m : Memory α) :
    Except Fault BasicIterator := do
  src.assert (it.node_ != none)
  let n ← load m it.node_
  pure ⟨n.next_node⟩

/-- `operator*`: `node_->value`, after `assert(node_ != nullptr)` in `main.cpp`. -/
def operator_deref (src : Source) (it : BasicIterator) (m : Memory α) : Except Fault α := do
  src.assert (it.node_ != none)
  let n ← load m it.node_
  pure n.value

/-! ## SingleLinkedList: queries -/

/-- `begin()` / `cbegin()`: `Iterator{head_.next_node}`. -/
def begin_ (this : Nat) (m : Memory α) : Except Fault BasicIterator := do
  let head_ ← load m (some this)
  pure ⟨head_.next_node⟩

/-- `end()` / `cend()`: `Iterator{nullptr}`. -/
def end_ : BasicIterator := ⟨none⟩

/-- `before_begin()` / `cbefore_begin()`: `Iterator(&head_)`. -/
def before_begin (this : Nat) : BasicIterator := ⟨some this⟩

/-- `GetSize()`: `size_`. -/
def GetSize (this : Nat) (m : Memory α) : Except Fault Nat :=
  loadSize m this

/-- `IsEmpty()`: `size_ == 0`. -/
def IsEmpty (this : Nat) (m : Memory α) : Except Fault Bool := do
  let size_ ← loadSize m this
  pure (size_ == 0)

/-! ## SingleLinkedList: mutators -/

/-- The default constructor, in fresh storage: `size_(0), head_()`. -/
def SingleLinkedList [Inhabited α] (m : Memory α) : Nat × Memory α :=
  alloc m (.list 0 ⟨default, none⟩)

/-- `swap(other)`: `std::swap(size_, other.size_)` and
`std::swap(head_.next_node, other.head_.next_node)`. -/
def swap (this other : Nat) (m : Memory α) : Except Fault (Memory α) := do
  let a ← loadSize m this
  let b ← loadSize m other
  let m ← storeSize m this b
  let m ← storeSize m other a
  let p := (← load m (some this)).next_node
  let q := (← load m (some other)).next_node
  let m ← storeNext m (some this) q
  storeNext m (some other) p

/-- `PushFront(value)`. -/
def PushFront (this : Nat) (value : α) (m : Memory α) : Except Fault (Memory α) := do
  let head_ ← load m (some this)
  let (node, m) := alloc m (.node ⟨value, head_.next_node⟩)
  let m ← storeNext m (some this) (some node)
  let size_ ← loadSize m this
  storeSize m this (inc_size_t size_)

/-- The loop of `Clear()`: `while (head_.next_node != nullptr)`. -/
def Clear.loop (this : Nat) : Nat → Memory α → Except Fault (Memory α)
  | fuel, m => do
    let head_ ← load m (some this)
    if head_.next_node != none then
      match fuel with
      | 0 => .error .no_fuel
      | fuel + 1 => do
        let node := head_.next_node
        let m ← storeNext m (some this) (← load m node).next_node
        let m ← delete m node
        Clear.loop this fuel m
    else pure m

/-- `Clear()`. -/
def Clear (this : Nat) (m : Memory α) : Except Fault (Memory α) := do
  let m ← Clear.loop this m.length m
  storeSize m this 0

/-- `InsertAfter(pos, value)`, with `assert(prev.node_)` in `main.cpp`. -/
def InsertAfter (src : Source) (this : Nat) (pos : BasicIterator) (value : α) (m : Memory α) :
    Except Fault (BasicIterator × Memory α) := do
  let prev : BasicIterator := ⟨pos.node_⟩
  src.assert (prev.node_ != none)
  let (node, m) := alloc m (.node ⟨value, (← load m prev.node_).next_node⟩)
  let m ← storeNext m prev.node_ (some node)
  let it : BasicIterator := ⟨some node⟩
  let size_ ← loadSize m this
  let m ← storeSize m this (inc_size_t size_)
  pure (it, m)

/-- `PopFront()`. -/
def PopFront (this : Nat) (m : Memory α) : Except Fault (Memory α) := do
  assert (!(← IsEmpty this m))
  let head_ ← load m (some this)
  let node := (← load m head_.next_node).next_node
  let m ← delete m head_.next_node
  let m ← storeNext m (some this) node
  let size_ ← loadSize m this
  storeSize m this (size_ - 1)

/-- `EraseAfter(pos)`, with `assert(pos.node_ != nullptr)` in `main.cpp`.
Neither file touches `size_` here. -/
def EraseAfter (src : Source) (this : Nat) (pos : BasicIterator) (m : Memory α) :
    Except Fault (BasicIterator × Memory α) := do
  let _ := this
  src.assert (pos.node_ != none)
  let it : BasicIterator := ⟨pos.node_⟩
  let removed := (← load m it.node_).next_node
  let m ← storeNext m it.node_ (← load m (← load m it.node_).next_node).next_node
  let m ← delete m removed
  let it ← operator_pre_inc src it m
  pure (it, m)

/-- The destructor `~SingleLinkedList() { Clear(); }`, then the object's
storage is given back. -/
def destroy (this : Nat) (m : Memory α) : Except Fault (Memory α) := do
  let m ← Clear this m
  release m this

/-! ## Construction, copy and assignment -/

/-- What `Assign` needs of its `InputIterator` template parameter:
`operator!=`, `operator*` and `operator++`. -/
structure InputIterator (α I : Type) where
  ne : I → I → Bool
  deref : I → Memory α → Except Fault α
  inc : I → Memory α → Except Fault I

/-- Iterators of a `std::initializer_list<Type>`: pointers into its array,
here the index into `values`. -/
def initializer_list (values : List α) : InputIterator α Nat where
  ne := fun i j => i != j
  deref := fun i _ =>
    match values[i]? with
    | some v => .ok v
    | none => .error .dangling
  inc := fun i _ => .ok (i + 1)

/-- `ConstIterator` as the `InputIterator` of `Assign`. -/
def ConstIterator (src : Source) : InputIterator α BasicIterator where
  ne := operator_ne
  deref := operator_deref src
  inc := operator_pre_inc src

/-- The loop of `Assign` (`main.cpp`): `while (from != to)`.  `node_ptr`, a
`Node**`, is the address of the node whose `next_node` it points at. -/
def Assign.loop {I : Type} (ops : InputIterator α I) (tmp : Nat) (last : I) :
    Nat → I → Nat → Memory α → Except Fault (Memory α)
  | fuel, first, node_ptr, m =>
    if ops.ne first last then
      match fuel with
      | 0 => .error .no_fuel
      | fuel + 1 => do
        assert ((← load m (some node_ptr)).next_node == none)
        let (node, m) := alloc m (.node ⟨← ops.deref first m, none⟩)
        let m ← storeNext m (some node_ptr) (some node)
        let size_ ← loadSize m tmp
        let m ← storeSize m tmp (inc_size_t size_)
        let node_ptr ← (match (← load m (some node_ptr)).next_node with
          | some a => pure a
          | none => .error .null_deref)
        let first ← ops.inc first m
        Assign.loop ops tmp last fuel first node_ptr m
    else pure m

/-- `Assign(from, to)` (`main.cpp`): build in a local `tmp`, `swap(tmp)`,
then `tmp` goes out of scope. -/
def Assign [Inhabited α] {I : Type} (ops : InputIterator α I) (fuel : Nat) (this : Nat)
    (first last : I) (m : Memory α) : Except Fault (Memory α) := do
  let (tmp, m) := SingleLinkedList m
  let m ← Assign.loop ops tmp last fuel first tmp m
  let m ← swap this tmp m
  destroy tmp m

/-- The loop of the `initializer_list` constructor (`single-linked-list.h`):
`for (auto value = rbegin(values); value != rend(values); ++value)`; the
reverse iterator is the index `i` of its base. -/
def pushReversed (tmp : Nat) (values : List α) : Nat → Memory α → Except Fault (Memory α)
  | 0, m => pure m
  | i + 1, m =>
    match values[i]? with
    | none => .error .dangling
    | some value => do
      let m ← PushFront tmp value m
      pushReversed tmp values i m

/-- `SingleLinkedList(std::initializer_list<Type> values)`, in fresh storage. -/
def SingleLinkedList_values [Inhabited α] (src : Source) (values : List α) (m : Memory α) :
    Except Fault (Nat × Memory α) := do
  let (this, m) := alloc m (.list 0 ⟨default, none⟩)
  match src with
  | .main_cpp =>
    let m ← Assign (initializer_list values) values.length this 0 values.length m
    pure (this, m)
  | .single_linked_list_h =>
    let (tmp, m) := SingleLinkedList m
    let m ← pushReversed tmp values values.length m
    let m ← swap this tmp m
    let m ← destroy tmp m
    pure (this, m)

/-- A loop `for (it = first; it != last; ++it) dst.PushFront(*it)`: both loops
of the copy constructor of `single-linked-list.h`. -/
def pushEach (src : Source) (dst : Nat) (last : BasicIterator) :
    Nat → BasicIterator → Memory α → Except Fault (Memory α)
  | fuel, it, m =>
    if operator_ne it last then
      match fuel with
      | 0 => .error .no_fuel
      | fuel + 1 => do
        let value ← operator_deref src it m
        let m ← PushFront dst value m
        let it ← operator_pre_inc src it m
        pushEach src dst last fuel it m
    else pure m

/-- `SingleLinkedList(const SingleLinkedList& other)`, in fresh storage. -/
def SingleLinkedList_copy [Inhabited α] (src : Source) (other : Nat) (m : Memory α) :
    Except Fault (Nat × Memory α) := do
  let (this, m) := alloc m (.list 0 ⟨default, none⟩)
  match src with
  | .main_cpp =>
    let m ← Assign (ConstIterator src) m.length this (← begin_ other m) end_ m
    pure (this, m)
  | .single_linked_list_h =>
    assert ((← loadSize m this) == 0 && (← load m (some this)).next_node == none)
    let (values, m) := SingleLinkedList m
    let (values_reverse, m) := SingleLinkedList m
    let m ← pushEach src values_reverse end_ m.length (← begin_ other m) m
    let m ← pushEach src values end_ m.length (← begin_ values_reverse m) m
    let m ← swap this values m
    let m ← destroy values_reverse m
    let m ← destroy values m
    pure (this, m)

/-- `operator=(rhs)`: copy and swap; `main.cpp` first returns when
`&rhs == this`. -/
def operator_assign [Inhabited α] (src : Source) (this rhs : Nat) (m : Memory α) :
    Except Fault (Memory α) := do
  if src = .main_cpp ∧ rhs = this then pure m
  else do
    let (tmp, m) ← SingleLinkedList_copy src rhs m
    let m ← swap this tmp m
    destroy tmp m

/-- The free function `swap(lhs, rhs)`: `lhs.swap(rhs)`. -/
def swap_free (lhs rhs : Nat) (m : Memory α) : Except Fault (Memory α) :=
  swap lhs rhs m

/-! ## Comparison operators -/

/-- `std::equal(first1, last1, first2)` as the C++ standard specifies it:
the range `[first1, last1)` is compared with the range that starts at
`first2`, whose end is never looked for. -/
def std_equal [DecidableEq α] (src : Source) (last1 : BasicIterator) :
    Nat → BasicIterator → BasicIterator → Memory α → Except Fault Bool
  | fuel, first1, first2, m =>
    if operator_ne first1 last1 then
      match fuel with
      | 0 => .error .no_fuel
      | fuel + 1 => do
        let a ← operator_deref src first1 m
        let b ← operator_deref src first2 m
        if a ≠ b then pure false
        else do
          let first1 ← operator_pre_inc src first1 m
          let first2 ← operator_pre_inc src first2 m
          std_equal src last1 fuel first1 first2 m
    else pure true

/-- `std::lexicographical_compare(first1, last1, first2, last2)` as the C++
standard specifies it. -/
def std_lexicographical_compare [LT α] [DecidableRel (fun (a b : α) => a < b)] (src : Source)
    (last1 last2 : BasicIterator) :
    Nat → BasicIterator → BasicIterator → Memory α → Except Fault Bool
  | fuel, first1, first2, m =>
    if operator_ne first1 last1 && operator_ne first2 last2 then
      match fuel with
      | 0 => .error .no_fuel
      | fuel + 1 => do
        let a ← operator_deref src first1 m
        let b ← operator_deref src first2 m
        if a < b then pure true
        else if b < a then pure false
        else do
          let first1 ← operator_pre_inc src first1 m
          let first2 ← operator_pre_inc src first2 m
          std_lexicographical_compare src last1 last2 fuel first1 first2 m
    else pure (operator_eq first1 last1 && operator_ne first2 last2)

/-- `operator==(lhs, rhs)`: `std::equal(lhs.begin(), lhs.end(), rhs.begin())`. -/
def operator_eq_list [DecidableEq α] (src : Source) (lhs rhs : Nat) (m : Memory α) :
    Except Fault Bool := do
  std_equal src end_ m.length (← begin_ lhs m) (← begin_ rhs m) m

/-- `operator!=(lhs, rhs)`: `!(lhs == rhs)`. -/
def operator_ne_list [DecidableEq α] (src : Source) (lhs rhs : Nat) (m : Memory α) :
    Except Fault Bool := do
  pure (!(← operator_eq_list src lhs rhs m))

/-- `operator<(lhs, rhs)`:
`std::lexicographical_compare(lhs.begin(), lhs.end(), rhs.begin(), rhs.end())`. -/
def operator_lt [LT α] [DecidableRel (fun (a b : α) => a < b)] (src : Source)
    (lhs rhs : Nat) (m : Memory α) : Except Fault Bool := do
  std_lexicographical_compare src end_ end_ m.length (← begin_ lhs m) (← begin_ rhs m) m

/-- `operator>(lhs, rhs)`:
`std::lexicographical_compare(rhs.begin(), rhs.end(), lhs.begin(), lhs.end())`. -/
def operator_gt [LT α] [DecidableRel (fun (a b : α) => a < b)] (src : Source)
    (lhs rhs : Nat) (m : Memory α) : Except Fault Bool := do
  std_lexicographical_compare src end_ end_ m.length (← begin_ rhs m) (← begin_ lhs m) m

/-- `operator<=(lhs, rhs)`: `!(lhs > rhs)`. -/
def operator_le [LT α] [DecidableRel (fun (a b : α) => a < b)] (src : Source)
    (lhs rhs : Nat) (m : Memory α) : Except Fault Bool := do
  pure (!(← operator_gt src lhs rhs m))

/-- `operator>=(lhs, rhs)`: `!(lhs < rhs)`. -/
def operator_ge [LT α] [DecidableRel (fun (a b : α) => a < b)] (src : Source)
    (lhs rhs : Nat) (m : Memory α) : Except Fault Bool := do
  pure (!(← operator_lt src lhs rhs m))

/-! ## Observation -/

/-- The values met by `for (it = first; it != last; ++it)`, in order. -/
def visit (src : Source) (last : BasicIterator) :
    Nat → BasicIterator → Memory α → Except Fault (List α)
  | fuel, it, m =>
    if operator_ne it last then
      match fuel with
      | 0 => .error .no_fuel
      | fuel + 1 => do
        let value ← operator_deref src it m
        let it ← operator_pre_inc src it m
        let rest ← visit src last fuel it m
        pure (value :: rest)
    else pure []

/-- The elements of a list, as iteration from `begin()` to `end()` meets them. -/
def elements (src : Source) (this : Nat) (m : Memory α) : Except Fault (List α) := do
  visit src end_ m.length (← begin_ this m) m

/-- What a caller observes of a list: its elements in iteration order and its
`GetSize()`. -/
def observe (src : Source) (this : Nat) (m : Memory α) : Except Fault (List α × Nat) := do
  pure (← elements src this m, ← GetSize this m)

/-- The iterator reached from `it` by `k` applications of `operator++`. -/
def advance (src : Source) : Nat → BasicIterator → Memory α → Except Fault BasicIterator
  | 0, it, _ => pure it
  | k + 1, it, m => do
    let it ← operator_pre_inc src it m
    advance src k it m

/-! ## Representation invariant

A chain of heap nodes is described by the list of its nodes, each an address
and the value stored there. -/

/-- Pointer to the first node of `ns`, or `q` when there is none. -/
def linkTo : List (Nat × α) → Option Nat → Option Nat
  | [], q => q
  | n :: _, _ => some n.1

/-- Each node of `ns` is a live heap node holding its value and pointing to
the next node of `ns`; the last one points to `q`. -/
def Seg (m : Memory α) : List (Nat × α) → Option Nat → Prop
  | [], _ => True
  | n :: rest, q => m[n.1]? = some (some (.node ⟨n.2, linkTo rest q⟩)) ∧ Seg m rest q

/-- The object at `this` is a live list with counter `size_` whose sentinel
points to the null-terminated chain `ns` of distinct nodes. -/
def Owns [Inhabited α] (m : Memory α) (this size_ : Nat) (ns : List (Nat × α)) : Prop :=
  m[this]? = some (some (.list size_ ⟨default, linkTo ns none⟩)) ∧
    Seg m ns none ∧ (ns.map Prod.fst).Nodup

/-- From `m` to `n` the memory grew, and only addresses in `owned` changed. -/
def Frame (m n : Memory α) (owned : List Nat) : Prop :=
  m.length ≤ n.length ∧ ∀ a, a < m.length → a ∉ owned → n[a]? = m[a]?

/-- The addresses of a list: its own and those of its nodes. -/
def addrs (this : Nat) (ns : List (Nat × α)) : List Nat :=
  this :: ns.map Prod.fst

/-- Decision procedure for `Seg`. -/
instance Seg.instDecidable [DecidableEq α] (m : Memory α) :
    (ns : List (Nat × α)) → (q : Option Nat) → Decidable (Seg m ns q)
  | [], _ => isTrue trivial
  | n :: rest, q =>
    have := Seg.instDecidable m rest q
    inferInstanceAs
      (Decidable (m[n.1]? = some (some (.node ⟨n.2, linkTo rest q⟩)) ∧ Seg m rest q))

/-- Decision procedure for `Owns`. -/
instance Owns.instDecidable [Inhabited α] [DecidableEq α] (m : Memory α) (this size_ : Nat)
    (ns : List (Nat × α)) : Decidable (Owns m this size_ ns) :=
  inferInstanceAs (Decidable (_ ∧ _ ∧ _))

/-- The memory in which `SingleLinkedList<unsigned>{1, 2, 3}` of `main.cpp` has
been constructed at address 0, from an empty memory. -/
def sample : Memory Nat :=
  [some (.list 3 ⟨0, some 2⟩), none, some (.node ⟨1, some 3⟩), some (.node ⟨2, some 4⟩),
    some (.node ⟨3, none⟩)]

/-- The memory in which `{1, 2}` has been constructed at address 0 and then
`{1, 2, 3}` at address 4 (`main.cpp`). -/
def sample_pair : Memory Nat :=
  [some (.list 2 ⟨0, some 2⟩), none, some (.node ⟨1, some 3⟩), some (.node ⟨2, none⟩),
    some (.list 3 ⟨0, some 6⟩), none, some (.node ⟨1, some 7⟩), some (.node ⟨2, some 8⟩),
    some (.node ⟨3, none⟩)]

/-- A memory that holds one empty list, at address 0, whose counter stands at
`SIZE_MAX`: the counter of a list after `SIZE_MAX` rounds of `churn`. -/
def at_max : Memory Nat :=
  [some (.list SIZE_MAX ⟨0, none⟩)]

/-- The calls `InsertAfter(before_begin(), value)` and `EraseAfter(before_begin())`,
made `k` times in turn. -/
def churn (src : Source) (this : Nat) (value : α) : Nat → Memory α → Except Fault (Memory α)
  | 0, m => pure m
  | k + 1, m => do
    let (_, m) ← InsertAfter src this (before_begin this) value m
    let (_, m) ← EraseAfter src this (before_begin this) m
    churn src this value k m

/-! ## The order of the specification -/

/-- Lexicographic order on sequences in the words of the specification: `xs` is
smaller than `ys` when it is a proper prefix of `ys`, or when, after a common
prefix `p`, the next element of `xs` is smaller than the next element of `ys`. -/
def LexSmaller [LT α] (xs ys : List α) : Prop :=
  (∃ y t, ys = xs ++ y :: t) ∨ (∃ p x y s t, xs = p ++ x :: s ∧ ys = p ++ y :: t ∧ x < y)

/-! ## Memory lemmas -/

theorem ok_bind {ε β γ : Type} (x : β) (f : β → Except ε γ) : (Except.ok x >>= f) = f x := rfl

theorem pure_eq_ok {ε β : Type} (x : β) : (pure x : Except ε β) = Except.ok x := rfl

theorem load_node {m : Memory α} {a : Nat} {n : Node α} (h : m[a]? = some (some (.node n))) :
    load m (some a) = .ok n := by
  simp [load, h]

theorem load_list {m : Memory α} {a s : Nat} {hd : Node α}
    (h : m[a]? = some (some (.list s hd))) : load m (some a) = .ok hd := by
  simp [load, h]

theorem storeNext_node {m : Memory α} {a : Nat} {n : Node α} (q : Option Nat)
    (h : m[a]? = some (some (.node n))) :
    storeNext m (some a) q = .ok (m.set a (some (.node ⟨n.value, q⟩))) := by
  simp [storeNext, h]

theorem storeNext_list {m : Memory α} {a s : Nat} {hd : Node α} (q : Option Nat)
    (h : m[a]? = some (some (.list s hd))) :
    storeNext m (some a) q = .ok (m.set a (some (.list s ⟨hd.value, q⟩))) := by
  simp [storeNext, h]

theorem loadSize_list {m : Memory α} {a s : Nat} {hd : Node α}
    (h : m[a]? = some (some (.list s hd))) : loadSize m a = .ok s := by
  simp [loadSize, h]

theorem storeSize_list {m : Memory α} {a s : Nat} {hd : Node α} (t : Nat)
    (h : m[a]? = some (some (.list s hd))) :
    storeSize m a t = .ok (m.set a (some (.list t hd))) := by
  simp [storeSize, h]

theorem delete_node {m : Memory α} {a : Nat} {n : Node α} (h : m[a]? = some (some (.node n))) :
    delete m (some a) = .ok (m.set a none) := by
  simp [delete, h]

theorem release_list {m : Memory α} {a s : Nat} {hd : Node α}
    (h : m[a]? = some (some (.list s hd))) : release m a = .ok (m.set a none) := by
  simp [release, h]

theorem lt_of_get {m : Memory α} {a : Nat} {c : Option (Cell α)} (h : m[a]? = some c) :
    a < m.length := by
  rcases List.getElem?_eq_some.mp h with ⟨h1, _⟩
  exact h1

theorem get_set_self {m : Memory α} {a : Nat} {c : Option (Cell α)} (d : Option (Cell α))
    (h : m[a]? = some c) : (m.set a d)[a]? = some d :=
  List.getElem?_set_self (lt_of_get h)

theorem get_set_ne {m : Memory α} {a b : Nat} (d : Option (Cell α)) (h : a ≠ b) :
    (m.set a d)[b]? = m[b]? :=
  List.getElem?_set_ne h

theorem get_alloc_old {m : Memory α} {a : Nat} (c : Option (Cell α)) (h : a < m.length) :
    (m ++ [c])[a]? = m[a]? :=
  List.getElem?_append_left h

theorem get_alloc_new (m : Memory α) (c : Option (Cell α)) : (m ++ [c])[m.length]? = some c :=
  List.getElem?_concat_length m c


theorem linkTo_append (l1 l2 : List (Nat × α)) (q : Option Nat) :
    linkTo (l1 ++ l2) q = linkTo l1 (linkTo l2 q) := by
  cases l1 <;> rfl

theorem seg_append {m : Memory α} (l1 l2 : List (Nat × α)) (q : Option Nat) :
    Seg m (l1 ++ l2) q ↔ Seg m l1 (linkTo l2 q) ∧ Seg m l2 q := by
  induction l1 with
  | nil => simp [Seg]
  | cons n rest ih =>
    show (m[n.1]? = some (some (.node ⟨n.2, linkTo (rest ++ l2) q⟩)) ∧ Seg m (rest ++ l2) q) ↔
      (m[n.1]? = some (some (.node ⟨n.2, linkTo rest (linkTo l2 q)⟩)) ∧ Seg m rest (linkTo l2 q)) ∧
        Seg m l2 q
    rw [ih, linkTo_append, and_assoc]

theorem seg_congr {m n : Memory α} {ns : List (Nat × α)} {q : Option Nat}
    (h : ∀ x ∈ ns, n[x.1]? = m[x.1]?) (hs : Seg m ns q) : Seg n ns q := by
  induction ns with
  | nil => trivial
  | cons x rest ih =>
    refine ⟨?_, ih (fun y hy => h y (List.mem_cons_of_mem _ hy)) hs.2⟩
    rw [h x (List.mem_cons_self _ _)]
    exact hs.1

theorem seg_mem {m : Memory α} {ns : List (Nat × α)} {q : Option Nat} (hs : Seg m ns q)
    {x : Nat × α} (hx : x ∈ ns) : ∃ nx, m[x.1]? = some (some (.node ⟨x.2, nx⟩)) := by
  induction ns with
  | nil => cases hx
  | cons y rest ih =>
    rcases List.mem_cons.mp hx with rfl | hx
    · exact ⟨_, hs.1⟩
    · exact ih hs.2 hx

theorem seg_lt {m : Memory α} {ns : List (Nat × α)} {q : Option Nat} (hs : Seg m ns q)
    {x : Nat × α} (hx : x ∈ ns) : x.1 < m.length := by
  rcases seg_mem hs hx with ⟨_, h⟩
  exact lt_of_get h

theorem seg_length_le {m : Memory α} {ns : List (Nat × α)} {q : Option Nat} (hs : Seg m ns q)
    (hd : (ns.map Prod.fst).Nodup) : ns.length ≤ m.length := by
  have hsub : ns.map Prod.fst ⊆ List.range m.length := by
    intro a ha
    rcases List.mem_map.mp ha with ⟨x, hx, rfl⟩
    exact List.mem_range.mpr (seg_lt hs hx)
  have := (List.subperm_of_subset hd hsub).length_le
  simpa using this

theorem pre_inc_node (src : Source) {m : Memory α} {a : Nat} {n : Node α}
    (h : m[a]? = some (some (.node n))) :
    operator_pre_inc src ⟨some a⟩ m = .ok ⟨n.next_node⟩ := by
  cases src <;> simp [operator_pre_inc, Source.assert, SLL.assert, load_node h, ok_bind, pure_eq_ok]

theorem pre_inc_list (src : Source) {m : Memory α} {a s : Nat} {hd : Node α}
    (h : m[a]? = some (some (.list s hd))) :
    operator_pre_inc src ⟨some a⟩ m = .ok ⟨hd.next_node⟩ := by
  cases src <;> simp [operator_pre_inc, Source.assert, SLL.assert, load_list h, ok_bind, pure_eq_ok]

theorem deref_node (src : Source) {m : Memory α} {a : Nat} {n : Node α}
    (h : m[a]? = some (some (.node n))) :
    operator_deref src ⟨some a⟩ m = .ok n.value := by
  cases src <;> simp [operator_deref, Source.assert, SLL.assert, load_node h, ok_bind, pure_eq_ok]

theorem visit_seg (src : Source) {m : Memory α} {ns : List (Nat × α)} (hs : Seg m ns none)
    (fuel : Nat) (hf : ns.length ≤ fuel) :
    visit src end_ fuel ⟨linkTo ns none⟩ m = .ok (ns.map Prod.snd) := by
  induction ns generalizing fuel with
  | nil => cases fuel <;> simp [visit, linkTo, operator_ne, end_, pure_eq_ok]
  | cons x rest ih =>
    cases fuel with
    | zero => simp at hf
    | succ fuel =>
      have hr := ih hs.2 fuel (by simpa using hf)
      have hr2 : visit src ⟨none⟩ fuel ⟨linkTo rest none⟩ m = .ok (rest.map Prod.snd) := hr
      simp only [visit, linkTo, operator_ne, end_]
      simp [deref_node src hs.1, pre_inc_node src hs.1, ok_bind, hr2, pure_eq_ok]

theorem begin_owns [Inhabited α] {m : Memory α} {this s : Nat} {ns : List (Nat × α)}
    (h : Owns m this s ns) : begin_ this m = .ok ⟨linkTo ns none⟩ := by
  simp [begin_, load_list h.1, ok_bind, pure_eq_ok]

theorem elements_owns [Inhabited α] (src : Source) {m : Memory α} {this s : Nat}
    {ns : List (Nat × α)} (h : Owns m this s ns) :
    elements src this m = .ok (ns.map Prod.snd) := by
  simp only [elements, begin_owns h, ok_bind]
  exact visit_seg src h.2.1 _ (seg_length_le h.2.1 h.2.2)

theorem GetSize_owns [Inhabited α] {m : Memory α} {this s : Nat} {ns : List (Nat × α)}
    (h : Owns m this s ns) : GetSize this m = .ok s :=
  loadSize_list h.1

/-! ## The representation invariant under change -/

theorem linkTo_append_cons (pre : List (Nat × α)) (y : Nat × α) (r : List (Nat × α))
    (q : Option Nat) : linkTo (pre ++ y :: r) q = linkTo pre (some y.1) := by
  rw [linkTo_append]
  rfl

theorem owns_ne [Inhabited α] {m : Memory α} {this s : Nat} {ns : List (Nat × α)}
    (h : Owns m this s ns) {x : Nat × α} (hx : x ∈ ns) : x.1 ≠ this := by
  rcases seg_mem h.2.1 hx with ⟨nx, hn⟩
  intro he
  rw [he, h.1] at hn
  cases hn

theorem owns_this_lt [Inhabited α] {m : Memory α} {this s : Nat} {ns : List (Nat × α)}
    (h : Owns m this s ns) : this < m.length :=
  lt_of_get h.1

theorem owns_frame [Inhabited α] {m n : Memory α} {this s : Nat} {ns : List (Nat × α)}
    {owned : List Nat} (h : Owns m this s ns) (hf : Frame m n owned) (ht : this ∉ owned)
    (hn : ∀ x ∈ ns, x.1 ∉ owned) : Owns n this s ns := by
  refine ⟨?_, seg_congr (fun x hx => hf.2 _ (seg_lt h.2.1 hx) (hn x hx)) h.2.1, h.2.2⟩
  rw [hf.2 _ (owns_this_lt h) ht]
  exact h.1

theorem frame_mono {m n : Memory α} {A B : List Nat} (hf : Frame m n A) (hs : ∀ a ∈ A, a ∈ B) :
    Frame m n B :=
  ⟨hf.1, fun a ha hb => hf.2 a ha (fun hc => hb (hs a hc))⟩

theorem frame_trans {m n k : Memory α} {A B C : List Nat} (h1 : Frame m n A) (h2 : Frame n k B)
    (hA : ∀ a ∈ A, a ∈ C) (hB : ∀ a ∈ B, a < m.length → a ∈ C) : Frame m k C := by
  refine ⟨le_trans h1.1 h2.1, fun a ha hc => ?_⟩
  rw [h2.2 a (lt_of_lt_of_le ha h1.1) (fun hb => hc (hB a hb ha)),
    h1.2 a ha (fun hb => hc (hA a hb))]

theorem frame_refl (m : Memory α) (A : List Nat) : Frame m m A :=
  ⟨le_refl _, fun _ _ _ => rfl⟩

/-! ## The counter -/

theorem inc_size_t_of_lt {s : Nat} (h : s < SIZE_MAX) : inc_size_t s = s + 1 := by
  unfold inc_size_t
  exact Nat.mod_eq_of_lt (by omega)

theorem inc_size_t_max : inc_size_t SIZE_MAX = 0 := by
  decide

/-! ## InsertAfter -/

theorem InsertAfter_head [Inhabited α] (src : Source) {m : Memory α} {this s : Nat}
    {ns : List (Nat × α)} (h : Owns m this s ns) (v : α) :
    ∃ n, InsertAfter src this (before_begin this) v m = .ok (⟨some m.length⟩, n) ∧
      Owns n this (inc_size_t s) ((m.length, v) :: ns) ∧ Frame m n (addrs this ns) ∧
      n = ((m ++ [some (Cell.node ⟨v, linkTo ns none⟩)]).set this
        (some (Cell.list s ⟨default, some m.length⟩))).set this
        (some (Cell.list (inc_size_t s) ⟨default, some m.length⟩)) := by
  have hlt := owns_this_lt h
  have h1 : (m ++ [some (Cell.node ⟨v, linkTo ns none⟩)])[this]? =
      some (some (.list s ⟨default, linkTo ns none⟩)) := by
    rw [get_alloc_old _ hlt]; exact h.1
  have h2 := get_set_self (some (Cell.list s ⟨default, some m.length⟩)) h1
  refine ⟨((m ++ [some (Cell.node ⟨v, linkTo ns none⟩)]).set this
    (some (Cell.list s ⟨default, some m.length⟩))).set this
    (some (Cell.list (inc_size_t s) ⟨default, some m.length⟩)), ?_, ?_, ?_, rfl⟩
  · cases src <;>
      simp [InsertAfter, before_begin, Source.assert, SLL.assert, alloc, load_list h.1,
        ok_bind, pure_eq_ok, storeNext_list _ h1, loadSize_list h2, storeSize_list _ h2]
  · refine ⟨?_, ⟨?_, ?_⟩, ?_⟩
    · simp [List.getElem?_set, List.getElem?_append, hlt, linkTo]
    · simp [List.getElem?_set, List.getElem?_append, hlt.ne, linkTo]
    · apply seg_congr _ h.2.1
      intro x hx
      have := owns_ne h hx
      have := seg_lt h.2.1 hx
      simp [List.getElem?_set, List.getElem?_append, *, Ne.symm]
    · simp only [List.map_cons, List.nodup_cons]
      refine ⟨?_, h.2.2⟩
      intro hm
      rcases List.mem_map.mp hm with ⟨x, hx, he⟩
      have := seg_lt h.2.1 hx
      omega
  · refine ⟨by simp, fun a ha hn => ?_⟩
    have : this ≠ a := fun he => hn (by simp [addrs, he])
    simp [List.getElem?_set, List.getElem?_append, *]

theorem nodup_middle (l1 l2 : List (Nat × α)) (y : Nat × α) :
    ((l1 ++ y :: l2).map Prod.fst).Nodup ↔
      y.1 ∉ (l1 ++ l2).map Prod.fst ∧ ((l1 ++ l2).map Prod.fst).Nodup := by
  rw [(List.perm_middle.map Prod.fst).nodup_iff, List.map_cons, List.nodup_cons]

theorem owns_split [Inhabited α] {m : Memory α} {this s : Nat} {pre post : List (Nat × α)}
    {x : Nat × α} (h : Owns m this s (pre ++ x :: post)) :
    Seg m pre (some x.1) ∧ m[x.1]? = some (some (.node ⟨x.2, linkTo post none⟩)) ∧
      Seg m post none ∧ x.1 ≠ this ∧ x.1 < m.length ∧ x.1 ∉ pre.map Prod.fst ∧
      x.1 ∉ post.map Prod.fst := by
  have hs := (seg_append pre (x :: post) none).mp h.2.1
  have hx : x ∈ pre ++ x :: post := by simp
  have hd := h.2.2
  rw [List.map_append, List.map_cons, List.nodup_append] at hd
  refine ⟨hs.1, hs.2.1, hs.2.2, owns_ne h hx, seg_lt h.2.1 hx, ?_, (List.nodup_cons.mp hd.2.1).1⟩
  intro hp
  exact hd.2.2 hp (List.mem_cons_self _ _)

theorem InsertAfter_node [Inhabited α] (src : Source) {m : Memory α} {this s : Nat}
    {pre post : List (Nat × α)} {x : Nat × α} (h : Owns m this s (pre ++ x :: post)) (v : α) :
    ∃ n, InsertAfter src this ⟨some x.1⟩ v m = .ok (⟨some m.length⟩, n) ∧
      Owns n this (inc_size_t s) (pre ++ x :: (m.length, v) :: post) ∧
      Frame m n (addrs this (pre ++ x :: post)) ∧
      n = ((m ++ [some (Cell.node ⟨v, linkTo post none⟩)]).set x.1
        (some (Cell.node ⟨x.2, some m.length⟩))).set this
        (some (Cell.list (inc_size_t s) ⟨default, linkTo (pre ++ x :: post) none⟩)) := by
  obtain ⟨hpre, hx, hpost, hne, hxlt, hxpre, hxpost⟩ := owns_split h
  have hlt := owns_this_lt h
  have h1 : (m ++ [some (Cell.node ⟨v, linkTo post none⟩)])[x.1]? =
      some (some (.node ⟨x.2, linkTo post none⟩)) := by
    rw [get_alloc_old _ hxlt]; exact hx
  have h2 : ((m ++ [some (Cell.node ⟨v, linkTo post none⟩)]).set x.1
      (some (Cell.node ⟨x.2, some m.length⟩)))[this]? =
      some (some (.list s ⟨default, linkTo (pre ++ x :: post) none⟩)) := by
    rw [get_set_ne _ hne, get_alloc_old _ hlt]; exact h.1
  refine ⟨((m ++ [some (Cell.node ⟨v, linkTo post none⟩)]).set x.1
    (some (Cell.node ⟨x.2, some m.length⟩))).set this
    (some (Cell.list (inc_size_t s) ⟨default, linkTo (pre ++ x :: post) none⟩)), ?_, ?_, ?_, rfl⟩
  · cases src <;>
      simp [InsertAfter, Source.assert, SLL.assert, alloc, load_node hx,
        ok_bind, pure_eq_ok, storeNext_node _ h1, loadSize_list h2, storeSize_list _ h2]
  · have hold : ∀ y ∈ pre ++ post, (((m ++ [some (Cell.node ⟨v, linkTo post none⟩)]).set x.1
        (some (Cell.node ⟨x.2, some m.length⟩))).set this
        (some (Cell.list (inc_size_t s) ⟨default, linkTo (pre ++ x :: post) none⟩)))[y.1]? = m[y.1]? := by
      intro y hy
      have hy2 : y ∈ pre ++ x :: post := by
        rcases List.mem_append.mp hy with hy | hy <;> simp [hy]
      have h3 := owns_ne h hy2
      have h4 := seg_lt h.2.1 hy2
      have h5 : x.1 ≠ y.1 := by
        intro he
        rcases List.mem_append.mp hy with hy | hy
        · exact hxpre (he ▸ List.mem_map_of_mem _ hy)
        · exact hxpost (he ▸ List.mem_map_of_mem _ hy)
      rw [get_set_ne _ h3.symm, get_set_ne _ h5, get_alloc_old _ h4]
    refine ⟨?_, ?_, ?_⟩
    · have e : linkTo (pre ++ x :: (m.length, v) :: post) none =
          linkTo (pre ++ x :: post) none := by
        rw [linkTo_append_cons, linkTo_append_cons]
      rw [e]
      exact get_set_self _ h2
    · rw [seg_append]
      refine ⟨seg_congr (fun y hy => hold y (List.mem_append_left _ hy)) hpre, ?_, ?_,
        seg_congr (fun y hy => hold y (List.mem_append_right _ hy)) hpost⟩
      · simp [List.getElem?_set, List.getElem?_append, hne.symm, hxlt, linkTo]
      · simp [List.getElem?_set, List.getElem?_append, hlt.ne, hxlt.ne, linkTo]
    · have hd := h.2.2
      have he : pre ++ x :: (m.length, v) :: post = (pre ++ [x]) ++ (m.length, v) :: post := by
        simp
      rw [he, nodup_middle]
      have he2 : pre ++ [x] ++ post = pre ++ x :: post := by simp
      rw [he2]
      refine ⟨fun hm => ?_, hd⟩
      rcases List.mem_map.mp hm with ⟨y, hy, hye⟩
      have := seg_lt h.2.1 hy
      simp only at hye
      omega
  · refine ⟨by simp, fun a ha hn => ?_⟩
    have h3 : this ≠ a := fun he => hn (by simp [addrs, he])
    have h4 : x.1 ≠ a := fun he => hn (by simp [addrs, ← he])
    rw [get_set_ne _ h3, get_set_ne _ h4, get_alloc_old _ ha]

/-! ## EraseAfter -/

theorem linkTo_cons (y : Nat × α) (r : List (Nat × α)) (q : Option Nat) :
    linkTo (y :: r) q = some y.1 := rfl

theorem linkTo_nil (q : Option Nat) : linkTo ([] : List (Nat × α)) q = q := rfl

theorem EraseAfter_head [Inhabited α] (src : Source) {m : Memory α} {this s : Nat}
    {post : List (Nat × α)} {y : Nat × α} (h : Owns m this s (y :: post)) :
    ∃ n, EraseAfter src this (before_begin this) m = .ok (⟨linkTo post none⟩, n) ∧
      Owns n this s post ∧ Frame m n (addrs this (y :: post)) ∧ n.length = m.length ∧
      n = (m.set this (some (Cell.list s ⟨default, linkTo post none⟩))).set y.1 none := by
  have hlt := owns_this_lt h
  have hy : m[y.1]? = some (some (.node ⟨y.2, linkTo post none⟩)) := h.2.1.1
  have hne : y.1 ≠ this := owns_ne h (List.mem_cons_self _ _)
  have h1 : (m.set this (some (Cell.list s ⟨default, linkTo post none⟩)))[y.1]? =
      some (some (.node ⟨y.2, linkTo post none⟩)) := by
    rw [get_set_ne _ hne.symm]; exact hy
  have h2 : ((m.set this (some (Cell.list s ⟨default, linkTo post none⟩))).set y.1 none)[this]? =
      some (some (.list s ⟨default, linkTo post none⟩)) := by
    rw [get_set_ne _ hne]; exact get_set_self _ h.1
  refine ⟨(m.set this (some (Cell.list s ⟨default, linkTo post none⟩))).set y.1 none,
    ?_, ⟨h2, ?_, (List.nodup_cons.mp h.2.2).2⟩, ?_, by simp, rfl⟩
  · cases src <;>
      simp [EraseAfter, before_begin, Source.assert, SLL.assert, load_list h.1, load_node hy,
        ok_bind, pure_eq_ok, storeNext_list _ h.1, delete_node h1, pre_inc_list _ h2, linkTo_cons]
  · apply seg_congr _ h.2.1.2
    intro x hx
    have h3 := owns_ne h (List.mem_cons_of_mem _ hx)
    have h4 : y.1 ≠ x.1 := by
      intro he
      exact (List.nodup_cons.mp h.2.2).1 (he ▸ List.mem_map_of_mem _ hx)
    rw [get_set_ne _ h4, get_set_ne _ h3.symm]
  · refine ⟨by simp, fun a _ hn => ?_⟩
    have h3 : this ≠ a := fun he => hn (by simp [addrs, he])
    have h4 : y.1 ≠ a := fun he => hn (by simp [addrs, ← he])
    rw [get_set_ne _ h4, get_set_ne _ h3]

theorem EraseAfter_node [Inhabited α] (src : Source) {m : Memory α} {this s : Nat}
    {pre post : List (Nat × α)} {x y : Nat × α} (h : Owns m this s (pre ++ x :: y :: post)) :
    ∃ n, EraseAfter src this ⟨some x.1⟩ m = .ok (⟨linkTo post none⟩, n) ∧
      Owns n this s (pre ++ x :: post) ∧ Frame m n (addrs this (pre ++ x :: y :: post)) ∧
      n.length = m.length := by
  obtain ⟨hpre, hx, hpost, hne, hxlt, hxpre, hxpost⟩ := owns_split h
  have hlt := owns_this_lt h
  have hy : m[y.1]? = some (some (.node ⟨y.2, linkTo post none⟩)) := hpost.1
  have hyne : y.1 ≠ this := owns_ne h (by simp)
  have hxy : x.1 ≠ y.1 := fun he => hxpost (by simp [he])
  have hd : y.1 ∉ (pre ++ [x] ++ post).map Prod.fst ∧ ((pre ++ [x] ++ post).map Prod.fst).Nodup := by
    have he : pre ++ x :: y :: post = (pre ++ [x]) ++ y :: post := by simp
    have := h.2.2
    rw [he, nodup_middle] at this
    exact this
  have he2 : pre ++ [x] ++ post = pre ++ x :: post := by simp
  rw [he2] at hd
  have h1 : (m.set x.1 (some (Cell.node ⟨x.2, linkTo post none⟩)))[y.1]? =
      some (some (.node ⟨y.2, linkTo post none⟩)) := by
    rw [get_set_ne _ hxy]; exact hy
  have h2 : ((m.set x.1 (some (Cell.node ⟨x.2, linkTo post none⟩))).set y.1 none)[x.1]? =
      some (some (.node ⟨x.2, linkTo post none⟩)) := by
    rw [get_set_ne _ hxy.symm]; exact get_set_self _ hx
  have hold : ∀ z ∈ pre ++ post,
      ((m.set x.1 (some (Cell.node ⟨x.2, linkTo post none⟩))).set y.1 none)[z.1]? = m[z.1]? := by
    intro z hz
    have hz2 : z.1 ∈ (pre ++ x :: post).map Prod.fst := by
      rcases List.mem_append.mp hz with hz | hz
      · exact List.mem_map_of_mem _ (by simp [hz])
      · exact List.mem_map_of_mem _ (by simp [hz])
    have h5 : y.1 ≠ z.1 := fun he => hd.1 (he ▸ hz2)
    have h6 : x.1 ≠ z.1 := by
      intro he
      rcases List.mem_append.mp hz with hz | hz
      · exact hxpre (he ▸ List.mem_map_of_mem _ hz)
      · exact hxpost (he ▸ List.mem_map_of_mem _ (List.mem_cons_of_mem _ hz))
    rw [get_set_ne _ h5, get_set_ne _ h6]
  refine ⟨(m.set x.1 (some (Cell.node ⟨x.2, linkTo post none⟩))).set y.1 none,
    ?_, ⟨?_, ?_, hd.2⟩, ?_, by simp⟩
  · cases src <;>
      simp [EraseAfter, Source.assert, SLL.assert, load_node hx, load_node hy,
        ok_bind, pure_eq_ok, storeNext_node _ hx, delete_node h1, pre_inc_node _ h2, linkTo_cons]
  · have e : linkTo (pre ++ x :: post) none = linkTo (pre ++ x :: y :: post) none := by
      rw [linkTo_append_cons, linkTo_append_cons]
    rw [e, get_set_ne _ hyne, get_set_ne _ hne]
    exact h.1
  · rw [seg_append]
    exact ⟨seg_congr (fun z hz => hold z (List.mem_append_left _ hz)) hpre, h2,
      seg_congr (fun z hz => hold z (List.mem_append_right _ hz)) hpost.2⟩
  · refine ⟨by simp, fun a _ hn => ?_⟩
    have h4 : x.1 ≠ a := fun he => hn (by simp [addrs, ← he])
    have h5 : y.1 ≠ a := fun he => hn (by simp [addrs, ← he])
    rw [get_set_ne _ h5, get_set_ne _ h4]

/-! ## Positions -/

theorem split_at (ns : List (Nat × α)) (j : Nat) (hj : j < ns.length) :
    ns = ns.take j ++ ns[j] :: ns.drop (j + 1) := by
  rw [← List.drop_eq_getElem_cons hj, List.take_append_drop]

theorem take_succ_at (ns : List (Nat × α)) (j : Nat) (hj : j < ns.length) :
    ns.take (j + 1) = ns.take j ++ [ns[j]] := by
  rw [List.take_succ, List.getElem?_eq_getElem hj]
  rfl

theorem addrs_zero (this : Nat) (ns : List (Nat × α)) : (addrs this ns)[0]? = some this := by
  simp [addrs]

theorem addrs_succ (this : Nat) (ns : List (Nat × α)) (j : Nat) :
    (addrs this ns)[j + 1]? = (ns.map Prod.fst)[j]? := by
  simp [addrs]

theorem addrs_succ_lt (this : Nat) (ns : List (Nat × α)) (j : Nat) (hj : j < ns.length) :
    (addrs this ns)[j + 1]? = some ns[j].1 := by
  rw [addrs_succ, List.getElem?_map, List.getElem?_eq_getElem hj]
  rfl

theorem linkTo_drop (ns : List (Nat × α)) (k : Nat) :
    linkTo (ns.drop k) none = (ns.map Prod.fst)[k]? := by
  induction ns generalizing k with
  | nil => simp [linkTo]
  | cons x rest ih =>
    cases k with
    | zero => simp [linkTo]
    | succ k => simpa using ih k

theorem advance_seg (src : Source) {m : Memory α} {ns : List (Nat × α)} (hs : Seg m ns none)
    (k : Nat) (hk : k ≤ ns.length) :
    advance src k ⟨linkTo ns none⟩ m = .ok ⟨linkTo (ns.drop k) none⟩ := by
  induction ns generalizing k with
  | nil =>
    have : k = 0 := by simpa using hk
    subst this
    rfl
  | cons x rest ih =>
    cases k with
    | zero => rfl
    | succ k =>
      have := ih hs.2 k (by simpa using hk)
      simp only [advance, linkTo_cons, pre_inc_node src hs.1, ok_bind, List.drop_succ_cons]
      exact this

theorem advance_owns [Inhabited α] (src : Source) {m : Memory α} {this s : Nat}
    {ns : List (Nat × α)} (h : Owns m this s ns) (k : Nat) (hk : k ≤ ns.length + 1) :
    advance src k (before_begin this) m = .ok ⟨(addrs this ns)[k]?⟩ := by
  cases k with
  | zero => rw [addrs_zero]; rfl
  | succ k =>
    simp only [advance, before_begin, pre_inc_list src h.1, ok_bind]
    rw [advance_seg src h.2.1 k (by omega), linkTo_drop, addrs_succ]

theorem InsertAfter_at [Inhabited α] (src : Source) {m : Memory α} {this s : Nat}
    {ns : List (Nat × α)} (h : Owns m this s ns) (k : Nat) (hk : k ≤ ns.length) (v : α) :
    ∃ n, InsertAfter src this ⟨(addrs this ns)[k]?⟩ v m = .ok (⟨some m.length⟩, n) ∧
      Owns n this (inc_size_t s) (ns.take k ++ (m.length, v) :: ns.drop k) ∧
      Frame m n (addrs this ns) := by
  cases k with
  | zero =>
    obtain ⟨n, h3, h4, h5, _⟩ := InsertAfter_head src h v
    rw [addrs_zero]
    exact ⟨n, h3, h4, h5⟩
  | succ j =>
    have hj : j < ns.length := hk
    have e := split_at ns j hj
    have h2 : Owns m this s (ns.take j ++ ns[j] :: ns.drop (j + 1)) := e ▸ h
    obtain ⟨n, h3, h4, h5, _⟩ := InsertAfter_node src h2 v
    refine ⟨n, ?_, ?_, ?_⟩
    · rw [addrs_succ_lt this ns j hj]; exact h3
    · have e2 : ns.take (j + 1) ++ (m.length, v) :: ns.drop (j + 1) =
          ns.take j ++ ns[j] :: (m.length, v) :: ns.drop (j + 1) := by
        rw [take_succ_at ns j hj, List.append_assoc]; rfl
      rw [e2]; exact h4
    · rw [← e] at h5; exact h5

theorem EraseAfter_at [Inhabited α] (src : Source) {m : Memory α} {this s : Nat}
    {ns : List (Nat × α)} (h : Owns m this s ns) (k : Nat) (hk : k < ns.length) :
    ∃ n, EraseAfter src this ⟨(addrs this ns)[k]?⟩ m = .ok (⟨linkTo (ns.drop (k + 1)) none⟩, n) ∧
      Owns n this s (ns.eraseIdx k) ∧ Frame m n (addrs this ns) ∧ n.length = m.length := by
  cases k with
  | zero =>
    cases ns with
    | nil => simp at hk
    | cons y post =>
      obtain ⟨n, h3, h4, h5, h6, _⟩ := EraseAfter_head src h
      rw [addrs_zero]
      exact ⟨n, h3, h4, h5, h6⟩
  | succ j =>
    have hj : j < ns.length := by omega
    have e : ns = ns.take j ++ ns[j] :: ns[j + 1] :: ns.drop (j + 2) := by
      rw [← List.drop_eq_getElem_cons hk]
      exact split_at ns j hj
    have h2 : Owns m this s (ns.take j ++ ns[j] :: ns[j + 1] :: ns.drop (j + 2)) := e ▸ h
    obtain ⟨n, h3, h4, h5, h6⟩ := EraseAfter_node src h2
    refine ⟨n, ?_, ?_, ?_, h6⟩
    · rw [addrs_succ_lt this ns j hj]; exact h3
    · have e2 : ns.eraseIdx (j + 1) = ns.take j ++ ns[j] :: ns.drop (j + 2) := by
        rw [List.eraseIdx_eq_take_drop_succ, take_succ_at ns j hj, List.append_assoc]; rfl
      rw [e2]; exact h4
    · rw [← e] at h5; exact h5

theorem map_snd_eraseIdx (ns : List (Nat × α)) (k : Nat) :
    (ns.eraseIdx k).map Prod.snd = (ns.map Prod.snd).eraseIdx k := by
  rw [List.eraseIdx_eq_take_drop_succ, List.eraseIdx_eq_take_drop_succ, List.map_append,
    List.map_take, List.map_drop]

theorem pos_of_advance [Inhabited α] {src : Source} {m : Memory α} {this s : Nat}
    {ns : List (Nat × α)} (h : Owns m this s ns) {k : Nat} (hk : k ≤ ns.length + 1)
    {pos : BasicIterator} (hpos : advance src k (before_begin this) m = .ok pos) :
    pos = ⟨(addrs this ns)[k]?⟩ := by
  rw [advance_owns src h k hk] at hpos
  cases hpos
  rfl

theorem pre_inc_at [Inhabited α] (src : Source) {m : Memory α} {this s : Nat}
    {ns : List (Nat × α)} (h : Owns m this s ns) (k : Nat) (hk : k ≤ ns.length) :
    operator_pre_inc src ⟨(addrs this ns)[k]?⟩ m = .ok ⟨linkTo (ns.drop k) none⟩ := by
  cases k with
  | zero => rw [addrs_zero]; exact pre_inc_list src h.1
  | succ j =>
    have hj : j < ns.length := hk
    rw [addrs_succ_lt this ns j hj]
    have e := split_at ns j hj
    have h2 : Owns m this s (ns.take j ++ ns[j] :: ns.drop (j + 1)) := e ▸ h
    exact pre_inc_node src (owns_split h2).2.1

theorem deref_at [Inhabited α] (src : Source) {m : Memory α} {this s : Nat}
    {ns : List (Nat × α)} (h : Owns m this s ns) (k : Nat) (x : α)
    (hx : (ns.map Prod.snd)[k]? = some x) :
    operator_deref src ⟨linkTo (ns.drop k) none⟩ m = .ok x := by
  rw [List.getElem?_map] at hx
  have hk : k < ns.length := by
    by_contra hc
    rw [List.getElem?_eq_none (by omega)] at hx
    cases hx
  rw [List.getElem?_eq_getElem hk] at hx
  have e := split_at ns k hk
  have h2 : Owns m this s (ns.take k ++ ns[k] :: ns.drop (k + 1)) := e ▸ h
  rw [List.drop_eq_getElem_cons hk, linkTo_cons]
  have := deref_node src (owns_split h2).2.1
  simp only [Option.map_some', Option.some.injEq] at hx
  rw [← hx]
  exact this

/-! ## EraseAfter and InsertAfter at a position (C4, C5) -/

/-- C4: in a list holding `x0 .. x(n-1)`, for the position `pos` reached from
`before_begin()` by `k < n` increments, `EraseAfter(pos)` returns; afterwards the
list holds the same elements without the one of index `k`, in the same order, and
the returned iterator is the successor of `pos`: it dereferences to `x(k+1)` when
there is one and is `end()` when the erased element was the last. -/
theorem EraseAfter_correct [Inhabited α] (src : Source) (m : Memory α) (this s : Nat)
    (ns : List (Nat × α)) (k : Nat) (pos : BasicIterator)
    (hown : Owns m this s ns) (hk : k < ns.length)
    (hpos : advance src k (before_begin this) m = .ok pos) :
    elements src this m = .ok (ns.map Prod.snd) ∧
    ∃ it n, EraseAfter src this pos m = .ok (it, n) ∧
      elements src this n = .ok ((ns.map Prod.snd).eraseIdx k) ∧
      operator_pre_inc src pos n = .ok it ∧
      (∀ x, (ns.map Prod.snd)[k + 1]? = some x → operator_deref src it n = .ok x) ∧
      (k + 1 = ns.length → it = end_) := by
  have hp := pos_of_advance hown (by omega) hpos
  subst hp
  obtain ⟨n, h1, h2, _, _⟩ := EraseAfter_at src hown k hk
  refine ⟨elements_owns src hown, _, n, h1, ?_, ?_, ?_, ?_⟩
  · rw [elements_owns src h2, map_snd_eraseIdx]
  · have ha : (addrs this (ns.eraseIdx k))[k]? = (addrs this ns)[k]? := by
      cases k with
      | zero => rw [addrs_zero, addrs_zero]
      | succ j =>
        rw [addrs_succ, addrs_succ, List.getElem?_map, List.getElem?_map,
          List.eraseIdx_eq_take_drop_succ, List.getElem?_append_left (by simp; omega),
          List.getElem?_take_of_lt (by omega)]
    have hl : (ns.eraseIdx k).drop k = ns.drop (k + 1) := by
      rw [List.eraseIdx_eq_take_drop_succ, List.drop_left' (by simp; omega)]
    have := pre_inc_at src h2 k (by rw [List.length_eraseIdx]; split <;> omega)
    rw [ha, hl] at this
    exact this
  · intro x hx
    have hl : (ns.eraseIdx k).drop k = ns.drop (k + 1) := by
      rw [List.eraseIdx_eq_take_drop_succ, List.drop_left' (by simp; omega)]
    have := deref_at src h2 k x (by
      rw [map_snd_eraseIdx, List.eraseIdx_eq_take_drop_succ,
        List.getElem?_append_right (by simp), List.getElem?_drop]
      simpa [Nat.min_eq_left (Nat.le_of_lt hk), Nat.add_comm] using hx)
    rw [hl] at this
    exact this
  · intro he
    rw [List.drop_of_length_le (by omega)]
    rfl

theorem sample_constructed :
    SingleLinkedList_values .main_cpp [1, 2, 3] ([] : Memory Nat) = .ok (0, sample) := rfl

theorem sample_pair_constructed :
    ∃ m, SingleLinkedList_values .main_cpp [1, 2] ([] : Memory Nat) = .ok (0, m) ∧
      SingleLinkedList_values .main_cpp [1, 2, 3] m = .ok (4, sample_pair) :=
  ⟨_, rfl, rfl⟩

/-- Witness for C4: on `[1, 2, 3]`, `EraseAfter(begin())` yields `[1, 3]` and
returns an iterator to `3`. -/
theorem EraseAfter_correct_witness :
    Owns sample 0 3 [(2, 1), (3, 2), (4, 3)] ∧
    advance .main_cpp 1 (before_begin 0) sample = .ok ⟨some 2⟩ ∧
    elements .main_cpp 0 sample = .ok [1, 2, 3] ∧
    ∃ it n, EraseAfter .main_cpp 0 ⟨some 2⟩ sample = .ok (it, n) ∧
      elements .main_cpp 0 n = .ok [1, 3] ∧
      operator_pre_inc .main_cpp ⟨some 2⟩ n = .ok it ∧
      (∀ x, [1, 2, 3][2]? = some x → operator_deref .main_cpp it n = .ok x) ∧
      (1 + 1 = 3 → it = end_) :=
  ⟨by decide, rfl,
    EraseAfter_correct .main_cpp sample 0 3 [(2, 1), (3, 2), (4, 3)] 1 ⟨some 2⟩
      (by decide) (by decide) rfl⟩

/-- C5 as stated fails on the code: on the empty list of `at_max`, whose `GetSize()` is
`SIZE_MAX`, `InsertAfter(before_begin(), 9)` inserts the element and leaves
`GetSize() == 0`, not one more than before; in both source files. -/
theorem InsertAfter_size_wraps :
    Owns at_max 0 SIZE_MAX [] ∧ GetSize 0 at_max = .ok SIZE_MAX ∧
    (∃ it n, InsertAfter .main_cpp 0 (before_begin 0) 9 at_max = .ok (it, n) ∧
      elements .main_cpp 0 n = .ok [9] ∧ GetSize 0 n = .ok 0) ∧
    (∃ it n, InsertAfter .single_linked_list_h 0 (before_begin 0) 9 at_max = .ok (it, n) ∧
      elements .single_linked_list_h 0 n = .ok [9] ∧ GetSize 0 n = .ok 0) :=
  ⟨by decide, rfl, ⟨_, _, rfl, rfl, rfl⟩, ⟨_, _, rfl, rfl, rfl⟩⟩

/-- C5, amended: in a list holding `x0 .. x(n-1)`, for the position `pos` reached from
`before_begin()` by `k ≤ n` increments, `InsertAfter(pos, v)` returns; afterwards
the list holds `x0 .. x(k-1), v, xk .. x(n-1)`, `GetSize()` is the former value
incremented as a `size_t`, which is one more than before whenever the former value is
below `SIZE_MAX`, `v` is the successor of `pos`, and the returned iterator dereferences
to `v` and has the former successor of `pos` as its successor. -/
theorem InsertAfter_correct [Inhabited α] (src : Source) (m : Memory α) (this s : Nat)
    (ns : List (Nat × α)) (k : Nat) (pos : BasicIterator) (v : α)
    (hown : Owns m this s ns) (hk : k ≤ ns.length)
    (hpos : advance src k (before_begin this) m = .ok pos) :
    elements src this m = .ok (ns.map Prod.snd) ∧ GetSize this m = .ok s ∧
    ∃ it n, InsertAfter src this pos v m = .ok (it, n) ∧
      elements src this n = .ok ((ns.map Prod.snd).take k ++ v :: (ns.map Prod.snd).drop k) ∧
      GetSize this n = .ok ((s + 1) % (SIZE_MAX + 1)) ∧
      (s < SIZE_MAX → GetSize this n = .ok (s + 1)) ∧
      operator_pre_inc src pos n = .ok it ∧
      operator_deref src it n = .ok v ∧
      operator_pre_inc src it n = operator_pre_inc src pos m := by
  have hp := pos_of_advance hown (by omega) hpos
  subst hp
  obtain ⟨n, h1, h2, _⟩ := InsertAfter_at src hown k hk v
  have hlen : (ns.take k).length = k := by simp [hk]
  have hk2 : k ≤ (ns.take k ++ (m.length, v) :: ns.drop k).length := by
    simp only [List.length_append, hlen]; omega
  have ha : (addrs this (ns.take k ++ (m.length, v) :: ns.drop k))[k]? = (addrs this ns)[k]? := by
    cases k with
    | zero => rw [addrs_zero, addrs_zero]
    | succ j =>
      rw [addrs_succ, addrs_succ, List.getElem?_map, List.getElem?_map,
        List.getElem?_append_left (by rw [hlen]; omega), List.getElem?_take_of_lt (by omega)]
  have hd : (ns.take k ++ (m.length, v) :: ns.drop k).drop k = (m.length, v) :: ns.drop k :=
    List.drop_left' hlen
  have hd1 : (ns.take k ++ (m.length, v) :: ns.drop k).drop (k + 1) = ns.drop k := by
    have e : ns.take k ++ (m.length, v) :: ns.drop k =
        (ns.take k ++ [(m.length, v)]) ++ ns.drop k := by simp
    rw [e, List.drop_left' (by simp [hlen])]
  have hi := pre_inc_at src h2 k hk2
  rw [ha, hd] at hi
  have hi1 := pre_inc_at src h2 (k + 1)
    (by simp only [List.length_append, hlen, List.length_cons]; omega)
  have ha1 : (addrs this (ns.take k ++ (m.length, v) :: ns.drop k))[k + 1]? = some m.length := by
    rw [addrs_succ, List.getElem?_map, List.getElem?_append_right (by rw [hlen]), hlen]
    simp
  rw [ha1, hd1] at hi1
  refine ⟨elements_owns src hown, GetSize_owns hown, _, n, h1, ?_, GetSize_owns h2, ?_, hi,
    ?_, ?_⟩
  · rw [elements_owns src h2]
    simp [List.map_take, List.map_drop]
  · intro hs
    rw [GetSize_owns h2, inc_size_t_of_lt hs]
  · have := deref_at src h2 k v (by
      rw [List.getElem?_map, List.getElem?_append_right (by rw [hlen]), hlen]
      simp)
    rw [hd] at this
    exact this
  · rw [hi1, pre_inc_at src hown k hk]

/-- Witness for C5: on `[1, 2, 3]`, `InsertAfter(begin(), 9)` yields `[1, 9, 2, 3]`. -/
theorem InsertAfter_correct_witness :
    Owns sample 0 3 [(2, 1), (3, 2), (4, 3)] ∧
    advance .single_linked_list_h 1 (before_begin 0) sample = .ok ⟨some 2⟩ ∧
    elements .single_linked_list_h 0 sample = .ok [1, 2, 3] ∧
    GetSize 0 sample = .ok 3 ∧
    ∃ it n, InsertAfter .single_linked_list_h 0 ⟨some 2⟩ 9 sample = .ok (it, n) ∧
      elements .single_linked_list_h 0 n = .ok [1, 9, 2, 3] ∧
      GetSize 0 n = .ok ((3 + 1) % (SIZE_MAX + 1)) ∧
      (3 < SIZE_MAX → GetSize 0 n = .ok (3 + 1)) ∧
      operator_pre_inc .single_linked_list_h ⟨some 2⟩ n = .ok it ∧
      operator_deref .single_linked_list_h it n = .ok 9 ∧
      operator_pre_inc .single_linked_list_h it n =
        operator_pre_inc .single_linked_list_h ⟨some 2⟩ sample :=
  ⟨by decide, rfl,
    InsertAfter_correct .single_linked_list_h sample 0 3 [(2, 1), (3, 2), (4, 3)] 1 ⟨some 2⟩ 9
      (by decide) (by decide) rfl⟩

/-! ## EraseAfter and the element counter (C1, C2, C10) -/

/-- C1 evaluated on the code: the list constructed from `{7}` and then subjected to
`EraseAfter(before_begin())`, a valid call, has `GetSize() == 1` while iteration from
`begin()` to `end()` visits no element; in both source files. -/
theorem size_invariant_fails (src : Source) :
    ∃ l m it n, SingleLinkedList_values src [7] ([] : Memory Nat) = .ok (l, m) ∧
      GetSize l m = .ok 1 ∧ elements src l m = .ok [7] ∧
      EraseAfter src l (before_begin l) m = .ok (it, n) ∧
      GetSize l n = .ok 1 ∧ elements src l n = .ok [] := by
  cases src <;> exact ⟨_, _, _, _, rfl, rfl, rfl, rfl, rfl, rfl⟩

/-- C2 evaluated on the code: on `[1, 2, 3]`, `EraseAfter(begin())` removes the element
`2` and leaves `GetSize()` at 3; in both source files. -/
theorem EraseAfter_keeps_size (src : Source) :
    GetSize 0 sample = .ok 3 ∧ elements src 0 sample = .ok [1, 2, 3] ∧
    ∃ pos it n, begin_ 0 sample = .ok pos ∧ EraseAfter src 0 pos sample = .ok (it, n) ∧
      elements src 0 n = .ok [1, 3] ∧ GetSize 0 n = .ok 3 := by
  cases src <;> exact ⟨rfl, rfl, _, _, _, rfl, rfl, rfl, rfl⟩

/-- C10 evaluated on the code: after `EraseAfter(before_begin())` on the list
constructed from `{7}`, `begin() == end()` holds while `IsEmpty()` is false and
`GetSize()` is 1; in both source files. -/
theorem empty_contract_fails (src : Source) :
    ∃ l m it n b, SingleLinkedList_values src [7] ([] : Memory Nat) = .ok (l, m) ∧
      EraseAfter src l (before_begin l) m = .ok (it, n) ∧
      begin_ l n = .ok b ∧ operator_eq b end_ = true ∧
      IsEmpty l n = .ok false ∧ GetSize l n = .ok 1 := by
  cases src <;> exact ⟨_, _, _, _, _, rfl, rfl, rfl, rfl, rfl, rfl⟩

/-! ## Equality of lists (C3, C9) -/

/-- C3 evaluated on the code: for `a = {1, 2}` and `b = {1, 2, 3}`, `a == b` is true
in both source files, although the lengths differ; `b == a` stops at the assertion of
`operator*` in `main.cpp` and dereferences a null pointer in `single-linked-list.h`. -/
theorem operator_eq_ignores_length :
    ∃ a m b n, SingleLinkedList_values .main_cpp [1, 2] ([] : Memory Nat) = .ok (a, m) ∧
      SingleLinkedList_values .main_cpp [1, 2, 3] m = .ok (b, n) ∧
      elements .main_cpp a n = .ok [1, 2] ∧ elements .main_cpp b n = .ok [1, 2, 3] ∧
      operator_eq_list .main_cpp a b n = .ok true ∧
      operator_eq_list .single_linked_list_h a b n = .ok true ∧
      operator_eq_list .main_cpp b a n = .error .assertion ∧
      operator_eq_list .single_linked_list_h b a n = .error .null_deref :=
  ⟨_, _, _, _, rfl, rfl, rfl, rfl, rfl, rfl, rfl, rfl⟩

/-- C9 evaluated on the code: for `a = {1, 2}` and `b = {1, 2, 3}`, `a == b` is true
and `a < b` is true, while `b <= a` is false; in both source files. -/
theorem operator_eq_not_antisymmetric (src : Source) :
    ∃ a m b n, SingleLinkedList_values src [1, 2] ([] : Memory Nat) = .ok (a, m) ∧
      SingleLinkedList_values src [1, 2, 3] m = .ok (b, n) ∧
      operator_eq_list src a b n = .ok true ∧
      operator_lt src a b n = .ok true ∧
      operator_le src a b n = .ok true ∧
      operator_le src b a n = .ok false := by
  cases src <;> exact ⟨_, _, _, _, rfl, rfl, rfl, rfl, rfl, rfl⟩

/-! ## PushFront, PopFront, Clear, swap and the destructor -/

theorem list_ne_node {m : Memory α} {a s : Nat} {hd : Node α} {ms : List (Nat × α)}
    {q : Option Nat} (ha : m[a]? = some (some (.list s hd))) (hs : Seg m ms q) {x : Nat × α}
    (hx : x ∈ ms) : a ≠ x.1 := by
  intro he
  obtain ⟨_, hn⟩ := seg_mem hs hx
  rw [← he, ha] at hn
  cases hn

theorem PushFront_owns [Inhabited α] {m : Memory α} {this s : Nat} {ns : List (Nat × α)}
    (h : Owns m this s ns) (v : α) :
    ∃ n, PushFront this v m = .ok n ∧ Owns n this (inc_size_t s) ((m.length, v) :: ns) ∧
      Frame m n (addrs this ns) := by
  obtain ⟨n, _, hO, hF, rfl⟩ := InsertAfter_head .single_linked_list_h h v
  refine ⟨_, ?_, hO, hF⟩
  have hlt := owns_this_lt h
  have h1 : (m ++ [some (Cell.node ⟨v, linkTo ns none⟩)])[this]? =
      some (some (.list s ⟨default, linkTo ns none⟩)) := by
    rw [get_alloc_old _ hlt]; exact h.1
  have h2 := get_set_self (some (Cell.list s ⟨default, some m.length⟩)) h1
  simp [PushFront, alloc, load_list h.1, ok_bind, storeNext_list _ h1, loadSize_list h2,
    storeSize_list _ h2]

theorem PopFront_owns [Inhabited α] {m : Memory α} {this s : Nat} {post : List (Nat × α)}
    {y : Nat × α} (h : Owns m this s (y :: post)) (hs : s ≠ 0) :
    ∃ n, PopFront this m = .ok n ∧ Owns n this (s - 1) post ∧
      Frame m n (addrs this (y :: post)) ∧ n.length = m.length := by
  have hy : m[y.1]? = some (some (.node ⟨y.2, linkTo post none⟩)) := h.2.1.1
  have hne : y.1 ≠ this := owns_ne h (List.mem_cons_self _ _)
  have h1 : (m.set y.1 none)[this]? =
      some (some (.list s ⟨default, linkTo (y :: post) none⟩)) := by
    rw [get_set_ne _ hne]; exact h.1
  have h2 := get_set_self (some (Cell.list s ⟨default, linkTo post none⟩)) h1
  have h3 := get_set_self (some (Cell.list (s - 1) ⟨default, linkTo post none⟩)) h2
  refine ⟨((m.set y.1 none).set this (some (Cell.list s ⟨default, linkTo post none⟩))).set this
    (some (Cell.list (s - 1) ⟨default, linkTo post none⟩)), ?_,
    ⟨h3, ?_, (List.nodup_cons.mp h.2.2).2⟩, ?_, by simp⟩
  · simp [PopFront, IsEmpty, SLL.assert, loadSize_list h.1, hs, load_list h.1, load_node hy,
      ok_bind, pure_eq_ok, linkTo_cons, delete_node hy, storeNext_list _ h1, loadSize_list h2,
      storeSize_list _ h2]
  · apply seg_congr _ h.2.1.2
    intro x hx
    have h4 := owns_ne h (List.mem_cons_of_mem _ hx)
    have h5 : y.1 ≠ x.1 := by
      intro he
      exact (List.nodup_cons.mp h.2.2).1 (he ▸ List.mem_map_of_mem _ hx)
    rw [get_set_ne _ h4.symm, get_set_ne _ h4.symm, get_set_ne _ h5]
  · refine ⟨by simp, fun a _ hn => ?_⟩
    have h4 : this ≠ a := fun he => hn (by simp [addrs, he])
    have h5 : y.1 ≠ a := fun he => hn (by simp [addrs, ← he])
    rw [get_set_ne _ h4, get_set_ne _ h4, get_set_ne _ h5]

theorem Clear_loop_owns [Inhabited α] {this s : Nat} (ns : List (Nat × α)) :
    ∀ (m : Memory α) (fuel : Nat), Owns m this s ns → ns.length ≤ fuel →
      ∃ n, Clear.loop this fuel m = .ok n ∧ Owns n this s [] ∧
        Frame m n (addrs this ns) ∧ n.length = m.length := by
  induction ns with
  | nil =>
    intro m fuel h _
    refine ⟨m, ?_, h, frame_refl _ _, rfl⟩
    cases fuel <;> unfold Clear.loop <;> simp [load_list h.1, ok_bind, pure_eq_ok, linkTo_nil]
  | cons y post ih =>
    intro m fuel h hf
    cases fuel with
    | zero => simp at hf
    | succ fuel =>
      obtain ⟨k, _, hO, hF, hL, rfl⟩ := EraseAfter_head .single_linked_list_h h
      obtain ⟨n, h1, h2, h3, h4⟩ := ih _ fuel hO (by simpa using hf)
      have hy : m[y.1]? = some (some (.node ⟨y.2, linkTo post none⟩)) := h.2.1.1
      have hne : y.1 ≠ this := owns_ne h (List.mem_cons_self _ _)
      have h5 : (m.set this (some (Cell.list s ⟨default, linkTo post none⟩)))[y.1]? =
          some (some (.node ⟨y.2, linkTo post none⟩)) := by
        rw [get_set_ne _ hne.symm]; exact hy
      refine ⟨n, ?_, h2, ?_, by rw [h4, hL]⟩
      · unfold Clear.loop
        simp only [load_list h.1, ok_bind, linkTo_cons, load_node hy,
          storeNext_list _ h.1, delete_node h5]
        simpa using h1
      · refine frame_trans hF h3 (fun a ha => ha) (fun a ha _ => ?_)
        simp only [addrs, List.map_cons, List.mem_cons] at ha ⊢
        rcases ha with ha | ha
        · exact Or.inl ha
        · exact Or.inr (Or.inr ha)

theorem Clear_owns [Inhabited α] {m : Memory α} {this s : Nat} {ns : List (Nat × α)}
    (h : Owns m this s ns) :
    ∃ n, Clear this m = .ok n ∧ Owns n this 0 [] ∧ Frame m n (addrs this ns) ∧
      n.length = m.length := by
  obtain ⟨k, h1, h2, h3, h4⟩ := Clear_loop_owns ns m m.length h (seg_length_le h.2.1 h.2.2)
  refine ⟨k.set this (some (Cell.list 0 ⟨default, linkTo [] none⟩)), ?_,
    ⟨get_set_self _ h2.1, trivial, List.nodup_nil⟩, ?_, by simp [h4]⟩
  · simp [Clear, h1, ok_bind, storeSize_list _ h2.1]
  · refine ⟨by simp [h4], fun a ha hn => ?_⟩
    have h5 : this ≠ a := fun he => hn (by simp [addrs, he])
    rw [get_set_ne _ h5]
    exact h3.2 a ha hn

theorem destroy_owns [Inhabited α] {m : Memory α} {this s : Nat} {ns : List (Nat × α)}
    (h : Owns m this s ns) :
    ∃ n, destroy this m = .ok n ∧ Frame m n (addrs this ns) ∧ n.length = m.length := by
  obtain ⟨k, h1, h2, h3, h4⟩ := Clear_owns h
  refine ⟨k.set this none, ?_, ?_, by simp [h4]⟩
  · simp [destroy, h1, ok_bind, release_list h2.1]
  · refine ⟨by simp [h4], fun a ha hn => ?_⟩
    have h5 : this ≠ a := fun he => hn (by simp [addrs, he])
    rw [get_set_ne _ h5]
    exact h3.2 a ha hn

theorem swap_owns [Inhabited α] {m : Memory α} {a b s t : Nat} {ns ms : List (Nat × α)}
    (ha : Owns m a s ns) (hb : Owns m b t ms) (hab : a ≠ b) :
    ∃ n, swap a b m = .ok n ∧ Owns n a t ms ∧ Owns n b s ns ∧ Frame m n [a, b] ∧
      n.length = m.length := by
  have h1 : (m.set a (some (Cell.list t ⟨default, linkTo ns none⟩)))[b]? =
      some (some (.list t ⟨default, linkTo ms none⟩)) := by
    rw [get_set_ne _ hab]; exact hb.1
  have h2 : ((m.set a (some (Cell.list t ⟨default, linkTo ns none⟩))).set b
      (some (Cell.list s ⟨default, linkTo ms none⟩)))[a]? =
      some (some (.list t ⟨default, linkTo ns none⟩)) := by
    rw [get_set_ne _ hab.symm]; exact get_set_self _ ha.1
  have h3 := get_set_self (some (Cell.list s ⟨default, linkTo ms none⟩)) h1
  have h4 : (((m.set a (some (Cell.list t ⟨default, linkTo ns none⟩))).set b
      (some (Cell.list s ⟨default, linkTo ms none⟩))).set a
      (some (Cell.list t ⟨default, linkTo ms none⟩)))[b]? =
      some (some (.list s ⟨default, linkTo ms none⟩)) := by
    rw [get_set_ne _ hab]; exact h3
  have hfr : ∀ c, a ≠ c → b ≠ c →
      ((((m.set a (some (Cell.list t ⟨default, linkTo ns none⟩))).set b
      (some (Cell.list s ⟨default, linkTo ms none⟩))).set a
      (some (Cell.list t ⟨default, linkTo ms none⟩))).set b
      (some (Cell.list s ⟨default, linkTo ns none⟩)))[c]? = m[c]? := by
    intro c hac hbc
    rw [get_set_ne _ hbc, get_set_ne _ hac, get_set_ne _ hbc, get_set_ne _ hac]
  refine ⟨(((m.set a (some (Cell.list t ⟨default, linkTo ns none⟩))).set b
      (some (Cell.list s ⟨default, linkTo ms none⟩))).set a
      (some (Cell.list t ⟨default, linkTo ms none⟩))).set b
      (some (Cell.list s ⟨default, linkTo ns none⟩)), ?_, ⟨?_, ?_, hb.2.2⟩,
      ⟨get_set_self _ h4, ?_, ha.2.2⟩, ⟨by simp, fun c _ hc => ?_⟩, by simp⟩
  · simp [swap, loadSize_list ha.1, loadSize_list hb.1, ok_bind, storeSize_list _ ha.1,
      storeSize_list _ h1, load_list h2, load_list h3, storeNext_list _ h2, storeNext_list _ h4]
  · rw [get_set_ne _ hab.symm]; exact get_set_self _ h2
  · exact seg_congr (fun x hx => hfr _ (list_ne_node ha.1 hb.2.1 hx)
      (list_ne_node hb.1 hb.2.1 hx)) hb.2.1
  · exact seg_congr (fun x hx => hfr _ (list_ne_node ha.1 ha.2.1 hx)
      (list_ne_node hb.1 ha.2.1 hx)) ha.2.1
  · apply hfr
    · exact fun he => hc (by simp [he])
    · exact fun he => hc (by simp [he])

/-! ## Construction from initial values -/

theorem frame_alloc (m : Memory α) (c : Option (Cell α)) (A : List Nat) :
    Frame m (m ++ [c]) A :=
  ⟨by simp, fun _ ha _ => get_alloc_old _ ha⟩

theorem owns_alloc [Inhabited α] (m : Memory α) :
    Owns (m ++ [some (Cell.list 0 ⟨default, none⟩)]) m.length 0 [] :=
  ⟨get_alloc_new _ _, trivial, List.nodup_nil⟩

theorem pushReversed_owns [Inhabited α] {tmp : Nat} (values : List α) :
    ∀ (i : Nat) (m : Memory α) (s : Nat) (ns : List (Nat × α)), i ≤ values.length →
      s + i ≤ SIZE_MAX → Owns m tmp s ns →
      ∃ n more, pushReversed tmp values i m = .ok n ∧ Owns n tmp (s + i) (more ++ ns) ∧
        more.map Prod.snd = values.take i ∧ (∀ x ∈ more, m.length ≤ x.1) ∧
        Frame m n (addrs tmp ns) := by
  intro i
  induction i with
  | zero =>
    intro m s ns _ _ h
    exact ⟨m, [], rfl, h, by simp, by simp, frame_refl _ _⟩
  | succ i ih =>
    intro m s ns hi hsz h
    have hlt : i < values.length := hi
    obtain ⟨m1, h1, h2, h3⟩ := PushFront_owns h values[i]
    rw [inc_size_t_of_lt (by omega)] at h2
    obtain ⟨n, more, h4, h5, h6, h7, h8⟩ := ih m1 (s + 1) _ (by omega) (by omega) h2
    refine ⟨n, more ++ [(m.length, values[i])], ?_, ?_, ?_, ?_, ?_⟩
    · simp only [pushReversed, List.getElem?_eq_getElem hlt, h1, ok_bind]
      exact h4
    · have e : s + (i + 1) = s + 1 + i := by omega
      rw [e, List.append_assoc]
      exact h5
    · rw [List.map_append, h6, List.take_succ, List.getElem?_eq_getElem hlt]
      rfl
    · intro x hx
      rcases List.mem_append.mp hx with hx | hx
      · exact le_trans h3.1 (h7 x hx)
      · simp only [List.mem_singleton] at hx
        subst hx
        exact le_refl _
    · refine frame_trans h3 h8 (fun a ha => ha) (fun a ha hlt => ?_)
      simp only [addrs, List.map_cons, List.mem_cons] at ha ⊢
      rcases ha with ha | ha | ha
      · exact Or.inl ha
      · omega
      · exact Or.inr ha

theorem values_header_owns [Inhabited α] (values : List α) (m : Memory α)
    (hlen : values.length ≤ SIZE_MAX) :
    ∃ n ns, SingleLinkedList_values .single_linked_list_h values m = .ok (m.length, n) ∧
      Owns n m.length values.length ns ∧ ns.map Prod.snd = values ∧
      (∀ x ∈ ns, m.length < x.1) ∧ Frame m n [] := by
  have hthis : Owns ((m ++ [some (Cell.list 0 ⟨default, none⟩)]) ++
      [some (Cell.list 0 ⟨default, none⟩)]) m.length 0 [] :=
    owns_frame (owns_alloc m) (frame_alloc _ _ []) (by simp) (by simp)
  have htmp := owns_alloc (m ++ [some (Cell.list 0 ⟨(default : α), none⟩)])
  obtain ⟨m3, more, h1, h2, h3, h4, h5⟩ :=
    pushReversed_owns values values.length _ 0 [] (le_refl _) (by omega) htmp
  have hthis3 : Owns m3 m.length 0 [] := owns_frame hthis h5 (by simp [addrs]) (by simp)
  rw [List.append_nil, Nat.zero_add] at h2
  obtain ⟨m4, h6, h7, h8, h9, h10⟩ := swap_owns hthis3 h2 (by simp)
  obtain ⟨m5, h11, h12, h13⟩ := destroy_owns h8
  have hge : ∀ x ∈ more, m.length + 2 ≤ x.1 := by
    intro x hx
    have := h4 x hx
    simpa using this
  refine ⟨m5, more, ?_, ?_, ?_, ?_, ?_⟩
  · simp only [SingleLinkedList_values, alloc, SingleLinkedList, ok_bind, pure_eq_ok]
    rw [h1]
    simp only [ok_bind]
    rw [h6]
    simp only [ok_bind]
    rw [h11]
    rfl
  · refine owns_frame h7 h12 (by simp [addrs]) (fun x hx hc => ?_)
    have := hge x hx
    simp [addrs] at hc
    omega
  · simpa using h3
  · intro x hx
    have := hge x hx
    omega
  · refine ⟨?_, fun a ha _ => ?_⟩
    · have := h5.1
      simp at this
      omega
    · have e1 : m5[a]? = m4[a]? :=
        h12.2 a (by rw [h10]; have := h5.1; simp at this; omega) (by simp [addrs]; omega)
      have e2 : m4[a]? = m3[a]? :=
        h9.2 a (by have := h5.1; simp at this; omega) (by simp; omega)
      have e3 := h5.2 a (by simp; omega) (by simp [addrs]; omega)
      rw [e1, e2, e3, get_alloc_old _ (by simp; omega), get_alloc_old _ ha]

/-! ## Assign -/

theorem addrs_last_nil (tmp : Nat) : (addrs tmp ([] : List (Nat × α)))[([] : List (Nat × α)).length]? =
    some tmp := by
  simp [addrs]

theorem addrs_last_concat (tmp : Nat) (pre : List (Nat × α)) (x : Nat × α) :
    (addrs tmp (pre ++ [x]))[(pre ++ [x]).length]? = some x.1 := by
  simp [addrs]

theorem Assign_loop_owns [Inhabited α] {I : Type} (ops : InputIterator α I) (last : I)
    (tmp L : Nat) (P : I → List α → Memory α → Prop)
    (hnil : ∀ first m, P first [] m → ops.ne first last = false)
    (hcons : ∀ first v vs m, P first (v :: vs) m →
      ops.ne first last = true ∧ ops.deref first m = .ok v)
    (hstep : ∀ first v vs m n, P first (v :: vs) m → L ≤ m.length → m.length ≤ n.length →
      (∀ a, a < L → n[a]? = m[a]?) → ∃ next, ops.inc first n = .ok next ∧ P next vs n)
    (hL : L ≤ tmp) :
    ∀ (vs : List α) (fuel : Nat) (first : I) (node_ptr : Nat) (m : Memory α) (s : Nat)
      (built : List (Nat × α)),
      vs.length ≤ fuel → s + vs.length ≤ SIZE_MAX → P first vs m → Owns m tmp s built →
      (∀ x ∈ built, L ≤ x.1) →
      (addrs tmp built)[built.length]? = some node_ptr →
      ∃ n more, Assign.loop ops tmp last fuel first node_ptr m = .ok n ∧
        Owns n tmp (s + vs.length) (built ++ more) ∧ more.map Prod.snd = vs ∧
        (∀ x ∈ more, m.length ≤ x.1) ∧ Frame m n (addrs tmp built) := by
  intro vs
  induction vs with
  | nil =>
    intro fuel first node_ptr m s built _ _ hP h _ _
    refine ⟨m, [], ?_, by simpa using h, rfl, by simp, frame_refl _ _⟩
    unfold Assign.loop
    simp [hnil first m hP, pure_eq_ok]
  | cons v vs ih =>
    intro fuel first node_ptr m s built hf hsz hP h hb hp
    have hs1 : s < SIZE_MAX := by simp only [List.length_cons] at hsz; omega
    obtain ⟨hne, hde⟩ := hcons first v vs m hP
    have htl := owns_this_lt h
    cases fuel with
    | zero => simp at hf
    | succ fuel =>
      have key : ∃ m3, Owns m3 tmp (inc_size_t s) (built ++ [(m.length, v)]) ∧
          Frame m m3 (addrs tmp built) ∧ m3.length = m.length + 1 ∧
          ∀ next, ops.inc first m3 = .ok next →
            Assign.loop ops tmp last (fuel + 1) first node_ptr m =
              Assign.loop ops tmp last fuel next m.length m3 := by
        rcases List.eq_nil_or_concat built with rfl | ⟨pre, x, hbx⟩
        · rw [addrs_last_nil] at hp
          cases hp
          obtain ⟨m3, _, hO, hF, rfl⟩ := InsertAfter_head .single_linked_list_h h v
          refine ⟨_, hO, hF, by simp, fun next hn => ?_⟩
          have h1 : (m ++ [some (Cell.node ⟨v, none⟩)])[tmp]? =
              some (some (.list s ⟨default, none⟩)) := by
            rw [get_alloc_old _ htl]; exact h.1
          have h2 := get_set_self (some (Cell.list s ⟨default, some m.length⟩)) h1
          have h3 := get_set_self (some (Cell.list (inc_size_t s) ⟨default, some m.length⟩)) h2
          have hn2 : ops.inc first ((List.set (m ++ [some (Cell.node ⟨v, none⟩)]) tmp
              (some (Cell.list s ⟨default, some m.length⟩))).set tmp
              (some (Cell.list (inc_size_t s) ⟨default, some m.length⟩))) = .ok next := hn
          conv => lhs; unfold Assign.loop
          simp only [hne, if_true, load_list h.1, linkTo_nil, ok_bind, SLL.assert, hde, alloc,
            storeNext_list _ h1, loadSize_list h2, storeSize_list _ h2, load_list h3, hn2,
            beq_self_eq_true, pure_eq_ok]
        · rw [List.concat_eq_append] at hbx
          subst hbx
          rw [addrs_last_concat] at hp
          cases hp
          have h' : Owns m tmp s (pre ++ x :: []) := h
          obtain ⟨hpre, hx, _, hxne, hxlt, _, _⟩ := owns_split h'
          obtain ⟨m3, _, hO, hF, rfl⟩ := InsertAfter_node .single_linked_list_h h' v
          have hO' := hO
          rw [show pre ++ x :: (m.length, v) :: [] = pre ++ [x] ++ [(m.length, v)] by simp]
            at hO'
          refine ⟨_, hO', hF, by simp, fun next hn => ?_⟩
          have h1 : (m ++ [some (Cell.node ⟨v, none⟩)])[x.1]? =
              some (some (.node ⟨x.2, none⟩)) := by
            rw [get_alloc_old _ hxlt]; exact hx
          have h2 : ((m ++ [some (Cell.node ⟨v, none⟩)]).set x.1
              (some (Cell.node ⟨x.2, some m.length⟩)))[tmp]? =
              some (some (.list s ⟨default, linkTo (pre ++ x :: []) none⟩)) := by
            rw [get_set_ne _ hxne, get_alloc_old _ htl]; exact h.1
          have h3 : (((m ++ [some (Cell.node ⟨v, none⟩)]).set x.1
              (some (Cell.node ⟨x.2, some m.length⟩))).set tmp
              (some (Cell.list (inc_size_t s) ⟨default, linkTo (pre ++ x :: []) none⟩)))[x.1]? =
              some (some (.node ⟨x.2, some m.length⟩)) := by
            rw [get_set_ne _ hxne.symm]; exact get_set_self _ h1
          have hn2 : ops.inc first (((m ++ [some (Cell.node ⟨v, none⟩)]).set x.1
              (some (Cell.node ⟨x.2, some m.length⟩))).set tmp
              (some (Cell.list (inc_size_t s) ⟨default, linkTo (pre ++ x :: []) none⟩))) = .ok next := hn
          conv => lhs; unfold Assign.loop
          simp only [hne, if_true, load_node hx, linkTo_nil, ok_bind, SLL.assert, hde, alloc,
            storeNext_node _ h1, loadSize_list h2, storeSize_list _ h2, load_node h3, hn2,
            beq_self_eq_true, pure_eq_ok]
      obtain ⟨m3, hO, hF, hlen, hloop⟩ := key
      obtain ⟨next, hn, hP'⟩ := hstep first v vs m m3 hP (by omega) (by omega)
        (fun a ha => hF.2 a (by omega) (by
          intro hc
          simp only [addrs, List.mem_cons, List.mem_map] at hc
          rcases hc with hc | ⟨y, hy, hc⟩
          · omega
          · have := hb y hy
            omega))
      rw [inc_size_t_of_lt hs1] at hO
      obtain ⟨n, more, h1, h2, h3, h4, h5⟩ := ih fuel next m.length m3 (s + 1)
        (built ++ [(m.length, v)]) (by simpa using hf)
        (by simp only [List.length_cons] at hsz; omega) hP' hO
        (by
          intro y hy
          rcases List.mem_append.mp hy with hy | hy
          · exact hb y hy
          · simp only [List.mem_singleton] at hy
            subst hy
            show L ≤ m.length
            omega)
        (addrs_last_concat tmp built (m.length, v))
      refine ⟨n, (m.length, v) :: more, ?_, ?_, by simp [h3], ?_, ?_⟩
      · rw [hloop next hn]; exact h1
      · have e : s + (v :: vs).length = s + 1 + vs.length := by simp; omega
        rw [e]
        simpa using h2
      · intro y hy
        rcases List.mem_cons.mp hy with rfl | hy
        · exact le_refl _
        · have := h4 y hy
          omega
      · refine frame_trans hF h5 (fun a ha => ha) (fun a ha hlt => ?_)
        simp only [addrs, List.map_append, List.map_cons, List.map_nil, List.mem_cons,
          List.mem_append, List.mem_singleton] at ha ⊢
        rcases ha with ha | ha | ha
        · exact Or.inl ha
        · exact Or.inr ha
        · simp at ha; omega

theorem Assign_owns [Inhabited α] {I : Type} (ops : InputIterator α I) (last : I)
    (L : Nat) (P : I → List α → Memory α → Prop)
    (hnil : ∀ first m, P first [] m → ops.ne first last = false)
    (hcons : ∀ first v vs m, P first (v :: vs) m →
      ops.ne first last = true ∧ ops.deref first m = .ok v)
    (hstep : ∀ first v vs m n, P first (v :: vs) m → L ≤ m.length → m.length ≤ n.length →
      (∀ a, a < L → n[a]? = m[a]?) → ∃ next, ops.inc first n = .ok next ∧ P next vs n)
    {m : Memory α} {this s0 : Nat} {ns0 : List (Nat × α)} (hthis : Owns m this s0 ns0)
    (hL : L ≤ m.length) (vs : List α) (fuel : Nat) (first : I) (hf : vs.length ≤ fuel)
    (hsz : vs.length ≤ SIZE_MAX)
    (hP : P first vs (m ++ [some (Cell.list 0 ⟨default, none⟩)])) :
    ∃ n more, Assign ops fuel this first last m = .ok n ∧ Owns n this vs.length more ∧
      more.map Prod.snd = vs ∧ (∀ x ∈ more, m.length < x.1) ∧
      Frame m n (addrs this ns0) := by
  have htl := owns_this_lt hthis
  have hthis1 : Owns (m ++ [some (Cell.list 0 ⟨default, none⟩)]) this s0 ns0 :=
    owns_frame hthis (frame_alloc _ _ []) (by simp) (by simp)
  obtain ⟨n2, more, h1, h2, h3, h4, h5⟩ := Assign_loop_owns ops last m.length L P hnil hcons
    hstep hL vs fuel first m.length _ 0 [] hf (by omega) hP (owns_alloc m) (by simp)
    (addrs_last_nil _)
  rw [List.nil_append, Nat.zero_add] at h2
  have hge : ∀ x ∈ more, m.length + 1 ≤ x.1 := by
    intro x hx
    simpa using h4 x hx
  have hthis2 : Owns n2 this s0 ns0 :=
    owns_frame hthis1 h5 (by simp [addrs]; omega) (fun x hx hc => by
      have := seg_lt hthis.2.1 hx
      simp [addrs] at hc
      omega)
  obtain ⟨n3, h6, h7, h8, h9, h10⟩ := swap_owns hthis2 h2 (by omega)
  obtain ⟨n4, h11, h12, h13⟩ := destroy_owns h8
  have hlen2 : m.length + 1 ≤ n2.length := by simpa using h5.1
  refine ⟨n4, more, ?_, ?_, h3, fun x hx => hge x hx, ?_⟩
  · simp only [Assign, SingleLinkedList, alloc, ok_bind]
    rw [h1]
    simp only [ok_bind]
    rw [h6]
    simp only [ok_bind]
    exact h11
  · refine owns_frame h7 h12 ?_ (fun x hx hc => ?_)
    · intro hc
      simp only [addrs, List.mem_cons, List.mem_map] at hc
      rcases hc with hc | ⟨y, hy, hc⟩
      · omega
      · exact owns_ne hthis hy hc
    · have := hge x hx
      simp only [addrs, List.mem_cons, List.mem_map] at hc
      rcases hc with hc | ⟨y, hy, hc⟩
      · omega
      · have := seg_lt hthis.2.1 hy
        omega
  · refine ⟨by omega, fun a ha hn => ?_⟩
    have hat : a ≠ this := fun he => hn (by simp [addrs, he])
    have hans : a ∉ ns0.map Prod.fst := fun he => hn (by simp only [addrs, List.mem_cons]; exact Or.inr he)
    have e1 : n4[a]? = n3[a]? := h12.2 a (by omega) (by
      intro hc
      simp only [addrs, List.mem_cons] at hc
      rcases hc with hc | hc
      · omega
      · exact hans hc)
    have e2 : n3[a]? = n2[a]? := h9.2 a (by omega) (by
      intro hc
      simp only [List.mem_cons, List.mem_singleton, List.not_mem_nil, or_false] at hc
      rcases hc with hc | hc
      · exact hat hc
      · omega)
    have e3 := h5.2 a (by simp; omega) (by simp [addrs]; omega)
    rw [e1, e2, e3, get_alloc_old _ ha]

theorem values_main_owns [Inhabited α] (values : List α) (m : Memory α)
    (hlen : values.length ≤ SIZE_MAX) :
    ∃ n ns, SingleLinkedList_values .main_cpp values m = .ok (m.length, n) ∧
      Owns n m.length values.length ns ∧ ns.map Prod.snd = values ∧
      (∀ x ∈ ns, m.length < x.1) ∧ Frame m n [] := by
  obtain ⟨n, more, h1, h2, h3, h4, h5⟩ := Assign_owns (initializer_list values) values.length 0
    (fun i vs _ => i ≤ values.length ∧ vs = values.drop i)
    (by
      rintro i _ ⟨hi, hd⟩
      have : values.length ≤ i := by
        have := congrArg List.length hd
        simp at this
        omega
      have : i = values.length := by omega
      simp [initializer_list, this])
    (by
      rintro i v vs _ ⟨hi, hd⟩
      have hlt : i < values.length := by
        have := congrArg List.length hd
        simp at this
        omega
      rw [List.drop_eq_getElem_cons hlt] at hd
      simp only [List.cons.injEq] at hd
      refine ⟨by simp [initializer_list]; omega, ?_⟩
      simp [initializer_list, List.getElem?_eq_getElem hlt, hd.1])
    (by
      rintro i v vs _ _ ⟨hi, hd⟩ _ _ _
      have hlt : i < values.length := by
        have := congrArg List.length hd
        simp at this
        omega
      rw [List.drop_eq_getElem_cons hlt] at hd
      simp only [List.cons.injEq] at hd
      exact ⟨i + 1, rfl, hlt, hd.2⟩)
    (owns_alloc m) (Nat.zero_le _) values values.length 0 (le_refl _) hlen
    ⟨Nat.zero_le _, rfl⟩
  have hlen : (m ++ [some (Cell.list 0 ⟨(default : α), none⟩)]).length = m.length + 1 := by simp
  refine ⟨n, more, ?_, h2, h3, fun x hx => ?_, ?_⟩
  · simp only [SingleLinkedList_values, alloc, ok_bind]
    rw [h1]
    rfl
  · have := h4 x hx
    omega
  · refine ⟨by have := h5.1; omega, fun a ha _ => ?_⟩
    rw [h5.2 a (by omega) (by simp [addrs]; omega), get_alloc_old _ ha]

theorem values_owns [Inhabited α] (src : Source) (values : List α) (m : Memory α)
    (hlen : values.length ≤ SIZE_MAX) :
    ∃ n ns, SingleLinkedList_values src values m = .ok (m.length, n) ∧
      Owns n m.length values.length ns ∧ ns.map Prod.snd = values ∧
      (∀ x ∈ ns, m.length < x.1) ∧ Frame m n [] := by
  cases src
  · exact values_main_owns values m hlen
  · exact values_header_owns values m hlen

/-! ## Construction from initial values (C6) -/

/-- C6: for every list of initial values, the empty one included, and in every memory,
the `initializer_list` constructor of either source file returns a list whose
iteration from `begin()` to `end()` meets exactly those values in their order and
whose `GetSize()` is their number.  The number of values is at most `SIZE_MAX`, as the
`size()` of a `std::initializer_list` is a `size_t`. -/
theorem SingleLinkedList_values_correct [Inhabited α] (src : Source) (values : List α)
    (m : Memory α) (hlen : values.length ≤ SIZE_MAX) :
    ∃ this n, SingleLinkedList_values src values m = .ok (this, n) ∧
      elements src this n = .ok values ∧ GetSize this n = .ok values.length := by
  obtain ⟨n, ns, h1, h2, h3, _, _⟩ := values_owns src values m hlen
  refine ⟨_, n, h1, ?_, GetSize_owns h2⟩
  rw [elements_owns src h2, h3]

/-- Witness for C6: the initial values `[1, 2, 3]` and the memory `sample`, in
`single-linked-list.h`. -/
theorem SingleLinkedList_values_correct_witness :
    [1, 2, 3].length ≤ SIZE_MAX ∧
    ∃ this n, SingleLinkedList_values .single_linked_list_h [1, 2, 3] sample = .ok (this, n) ∧
      elements .single_linked_list_h this n = .ok [1, 2, 3] ∧
      GetSize this n = .ok [1, 2, 3].length :=
  ⟨by decide, SingleLinkedList_values_correct .single_linked_list_h [1, 2, 3] sample
    (by decide)⟩

/-! ## Ordering operators (C8) -/

theorem lexSmaller_nil_nil [LT α] : ¬ LexSmaller ([] : List α) [] := by
  rintro (⟨y, t, h⟩ | ⟨p, x, y, s, t, h, _⟩)
  · simp at h
  · simp at h

theorem lexSmaller_nil_cons [LT α] (y : α) (t : List α) : LexSmaller [] (y :: t) :=
  Or.inl ⟨y, t, rfl⟩

theorem lexSmaller_cons_nil [LT α] (x : α) (s : List α) : ¬ LexSmaller (x :: s) [] := by
  rintro (⟨y, t, h⟩ | ⟨p, x, y, s, t, _, h, _⟩)
  · simp at h
  · simp at h

theorem lexSmaller_cons_cons [LinearOrder α] (x y : α) (s t : List α) :
    LexSmaller (x :: s) (y :: t) ↔ x < y ∨ (¬ x < y ∧ ¬ y < x ∧ LexSmaller s t) := by
  constructor
  · rintro (⟨z, r, h⟩ | ⟨p, a, b, s', t', h1, h2, hlt⟩)
    · simp only [List.cons_append, List.cons.injEq] at h
      obtain ⟨rfl, rfl⟩ := h
      exact Or.inr ⟨lt_irrefl _, lt_irrefl _, Or.inl ⟨z, r, rfl⟩⟩
    · cases p with
      | nil =>
        simp only [List.nil_append, List.cons.injEq] at h1 h2
        obtain ⟨rfl, rfl⟩ := h1
        obtain ⟨rfl, rfl⟩ := h2
        exact Or.inl hlt
      | cons c p =>
        simp only [List.cons_append, List.cons.injEq] at h1 h2
        obtain ⟨rfl, rfl⟩ := h1
        obtain ⟨rfl, rfl⟩ := h2
        exact Or.inr ⟨lt_irrefl _, lt_irrefl _, Or.inr ⟨p, a, b, s', t', rfl, rfl, hlt⟩⟩
  · rintro (hlt | ⟨h1, h2, h3⟩)
    · exact Or.inr ⟨[], x, y, s, t, rfl, rfl, hlt⟩
    · have e : x = y := le_antisymm (not_lt.mp h2) (not_lt.mp h1)
      subst e
      rcases h3 with ⟨z, r, rfl⟩ | ⟨p, a, b, s', t', rfl, rfl, hlt⟩
      · exact Or.inl ⟨z, r, rfl⟩
      · exact Or.inr ⟨x :: p, a, b, s', t', rfl, rfl, hlt⟩

theorem lexicographical_compare_seg [LinearOrder α] (src : Source) {m : Memory α}
    (ns : List (Nat × α)) :
    ∀ (ms : List (Nat × α)) (fuel : Nat), Seg m ns none → Seg m ms none → ns.length ≤ fuel →
      ∃ r, std_lexicographical_compare src end_ end_ fuel ⟨linkTo ns none⟩ ⟨linkTo ms none⟩ m =
          .ok r ∧ (r = true ↔ LexSmaller (ns.map Prod.snd) (ms.map Prod.snd)) := by
  induction ns with
  | nil =>
    intro ms fuel _ _ _
    cases ms with
    | nil =>
      refine ⟨false, ?_, by simp [lexSmaller_nil_nil]⟩
      unfold std_lexicographical_compare
      simp [operator_ne, operator_eq, end_, linkTo_nil, pure_eq_ok]
    | cons y t =>
      refine ⟨true, ?_, by simp [lexSmaller_nil_cons]⟩
      unfold std_lexicographical_compare
      simp [operator_ne, operator_eq, end_, linkTo_nil, linkTo_cons, pure_eq_ok]
  | cons x s ih =>
    intro ms fuel hn hm hf
    cases ms with
    | nil =>
      refine ⟨false, ?_, by simp [lexSmaller_cons_nil]⟩
      unfold std_lexicographical_compare
      simp [operator_ne, operator_eq, end_, linkTo_nil, linkTo_cons, pure_eq_ok]
    | cons y t =>
      cases fuel with
      | zero => simp at hf
      | succ fuel =>
        obtain ⟨r, h1, h2⟩ := ih t fuel hn.2 hm.2 (by simpa using hf)
        have h1' : std_lexicographical_compare src ⟨none⟩ ⟨none⟩ fuel ⟨linkTo s none⟩
            ⟨linkTo t none⟩ m = .ok r := h1
        simp only [List.map_cons, lexSmaller_cons_cons]
        unfold std_lexicographical_compare
        by_cases hxy : x.2 < y.2
        · refine ⟨true, ?_, by simp [hxy]⟩
          simp [operator_ne, end_, linkTo_cons, deref_node src hn.1, deref_node src hm.1,
            ok_bind, hxy, pure_eq_ok]
        · by_cases hyx : y.2 < x.2
          · refine ⟨false, ?_, by simp [hxy, hyx]⟩
            simp [operator_ne, end_, linkTo_cons, deref_node src hn.1, deref_node src hm.1,
              ok_bind, hxy, hyx, pure_eq_ok]
          · refine ⟨r, ?_, by simp [hxy, hyx, h2]⟩
            simp [operator_ne, end_, linkTo_cons, deref_node src hn.1, deref_node src hm.1,
              ok_bind, hxy, hyx, pre_inc_node src hn.1, pre_inc_node src hm.1, h1']

theorem operator_lt_owns [Inhabited α] [LinearOrder α] (src : Source) {m : Memory α}
    {a b s t : Nat} {ns ms : List (Nat × α)} (ha : Owns m a s ns) (hb : Owns m b t ms) :
    ∃ r, operator_lt src a b m = .ok r ∧
      (r = true ↔ LexSmaller (ns.map Prod.snd) (ms.map Prod.snd)) := by
  obtain ⟨r, h1, h2⟩ := lexicographical_compare_seg src ns ms m.length ha.2.1 hb.2.1
    (seg_length_le ha.2.1 ha.2.2)
  refine ⟨r, ?_, h2⟩
  simp only [operator_lt, begin_owns ha, begin_owns hb, ok_bind]
  exact h1

/-- C8: for two lists `a` and `b` over a linearly ordered element type, all four
ordering operators return, and `a < b` is true exactly when the elements of `a` are
lexicographically smaller than those of `b` (`LexSmaller`, a proper prefix being
smaller), `a > b` exactly when `b < a`, `a <= b` exactly when `b < a` is false, and
`a >= b` exactly when `a < b` is false. -/
theorem ordering_operators_correct [Inhabited α] [LinearOrder α] (src : Source)
    (m : Memory α) (a b s t : Nat) (ns ms : List (Nat × α))
    (ha : Owns m a s ns) (hb : Owns m b t ms) :
    elements src a m = .ok (ns.map Prod.snd) ∧ elements src b m = .ok (ms.map Prod.snd) ∧
    ∃ lt gt, operator_lt src a b m = .ok lt ∧ operator_lt src b a m = .ok gt ∧
      operator_gt src a b m = .ok gt ∧
      operator_le src a b m = .ok (!gt) ∧
      operator_ge src a b m = .ok (!lt) ∧
      (lt = true ↔ LexSmaller (ns.map Prod.snd) (ms.map Prod.snd)) ∧
      (gt = true ↔ LexSmaller (ms.map Prod.snd) (ns.map Prod.snd)) := by
  obtain ⟨lt, h1, h2⟩ := operator_lt_owns src ha hb
  obtain ⟨gt, h3, h4⟩ := operator_lt_owns src hb ha
  have h5 : operator_gt src a b m = .ok gt := h3
  refine ⟨elements_owns src ha, elements_owns src hb, lt, gt, h1, h3, h5, ?_, ?_, h2, h4⟩
  · simp [operator_le, h5, ok_bind, pure_eq_ok]
  · simp [operator_ge, h1, ok_bind, pure_eq_ok]

/-- Witness for C8: `{1, 2}` and `{1, 2, 3}`. -/
theorem ordering_operators_correct_witness :
    Owns sample_pair 0 2 [(2, 1), (3, 2)] ∧ Owns sample_pair 4 3 [(6, 1), (7, 2), (8, 3)] ∧
    elements .main_cpp 0 sample_pair = .ok [1, 2] ∧
    elements .main_cpp 4 sample_pair = .ok [1, 2, 3] ∧
    ∃ lt gt, operator_lt .main_cpp 0 4 sample_pair = .ok lt ∧
      operator_lt .main_cpp 4 0 sample_pair = .ok gt ∧
      operator_gt .main_cpp 0 4 sample_pair = .ok gt ∧
      operator_le .main_cpp 0 4 sample_pair = .ok (!gt) ∧
      operator_ge .main_cpp 0 4 sample_pair = .ok (!lt) ∧
      (lt = true ↔ LexSmaller [1, 2] [1, 2, 3]) ∧
      (gt = true ↔ LexSmaller [1, 2, 3] [1, 2]) :=
  ⟨by decide, by decide,
    ordering_operators_correct .main_cpp sample_pair 0 4 2 3 [(2, 1), (3, 2)]
      [(6, 1), (7, 2), (8, 3)] (by decide) (by decide)⟩

/-- `LexSmaller` is the lexicographic order `List.Lex` of the library. -/
theorem lexSmaller_iff_lex [LinearOrder α] (xs ys : List α) :
    LexSmaller xs ys ↔ List.Lex (fun a b : α => a < b) xs ys := by
  induction xs generalizing ys with
  | nil =>
    cases ys with
    | nil => simp [lexSmaller_nil_nil]
    | cons y t => simp [lexSmaller_nil_cons, List.Lex.nil]
  | cons x s ih =>
    cases ys with
    | nil => simp [lexSmaller_cons_nil]
    | cons y t =>
      rw [lexSmaller_cons_cons, ih]
      constructor
      · rintro (h | ⟨h1, h2, h3⟩)
        · exact List.Lex.rel h
        · have e : x = y := le_antisymm (not_lt.mp h2) (not_lt.mp h1)
          subst e
          exact List.Lex.cons h3
      · intro h
        cases h with
        | cons h3 => exact Or.inr ⟨lt_irrefl _, lt_irrefl _, h3⟩
        | rel h => exact Or.inl h

/-! ## The copy constructor -/

theorem pushEach_owns [Inhabited α] (src : Source) {dst : Nat} (from_ : List (Nat × α)) :
    ∀ (m : Memory α) (fuel s : Nat) (ns : List (Nat × α)), Seg m from_ none →
      Owns m dst s ns → (∀ x ∈ from_, x.1 ∉ addrs dst ns) → from_.length ≤ fuel →
      s + from_.length ≤ SIZE_MAX →
      ∃ n more, pushEach src dst end_ fuel ⟨linkTo from_ none⟩ m = .ok n ∧
        Owns n dst (s + from_.length) (more ++ ns) ∧
        more.map Prod.snd = (from_.map Prod.snd).reverse ∧ (∀ x ∈ more, m.length ≤ x.1) ∧
        Frame m n (addrs dst ns) := by
  induction from_ with
  | nil =>
    intro m fuel s ns _ h _ _ _
    refine ⟨m, [], ?_, by simpa using h, rfl, by simp, frame_refl _ _⟩
    unfold pushEach
    simp [operator_ne, end_, linkTo_nil, pure_eq_ok]
  | cons x rest ih =>
    intro m fuel s ns hseg h hdis hf hsz
    simp only [List.length_cons] at hsz
    cases fuel with
    | zero => simp at hf
    | succ fuel =>
      obtain ⟨m1, h1, h2, h3⟩ := PushFront_owns h x.2
      rw [inc_size_t_of_lt (by omega)] at h2
      have hseg1 : Seg m1 (x :: rest) none :=
        seg_congr (fun y hy => h3.2 _ (seg_lt hseg hy) (hdis y hy)) hseg
      obtain ⟨n, more, h4, h5, h6, h7, h8⟩ := ih m1 fuel (s + 1) ((m.length, x.2) :: ns)
        hseg1.2 h2
        (by
          intro y hy hc
          have hy' : y ∈ x :: rest := List.mem_cons_of_mem _ hy
          have := seg_lt hseg hy'
          simp only [addrs, List.map_cons, List.mem_cons] at hc
          rcases hc with hc | hc | hc
          · exact hdis y hy' (by simp [addrs, hc])
          · omega
          · exact hdis y hy' (by simp only [addrs, List.mem_cons]; exact Or.inr hc))
        (by simpa using hf) (by omega)
      have h4' : pushEach src dst ⟨none⟩ fuel ⟨linkTo rest none⟩ m1 = .ok n := h4
      refine ⟨n, more ++ [(m.length, x.2)], ?_, ?_, ?_, ?_, ?_⟩
      · unfold pushEach
        simp [operator_ne, end_, linkTo_cons, deref_node src hseg.1, ok_bind, h1,
          pre_inc_node src hseg1.1, h4']
      · have e : s + (x :: rest).length = s + 1 + rest.length := by simp; omega
        rw [e, List.append_assoc]
        exact h5
      · simp [h6]
      · intro y hy
        rcases List.mem_append.mp hy with hy | hy
        · exact le_trans h3.1 (h7 y hy)
        · simp only [List.mem_singleton] at hy
          subst hy
          exact le_refl _
      · refine frame_trans h3 h8 (fun a ha => ha) (fun a ha hlt => ?_)
        simp only [addrs, List.map_cons, List.mem_cons] at ha ⊢
        rcases ha with ha | ha | ha
        · exact Or.inl ha
        · omega
        · exact Or.inr ha

theorem copy_main_owns [Inhabited α] {m : Memory α} {other s : Nat} {ns : List (Nat × α)}
    (h : Owns m other s ns) (hsz : ns.length ≤ SIZE_MAX) :
    ∃ n more, SingleLinkedList_copy .main_cpp other m = .ok (m.length, n) ∧
      Owns n m.length ns.length more ∧ more.map Prod.snd = ns.map Prod.snd ∧
      (∀ x ∈ more, m.length < x.1) ∧ Frame m n [] := by
  have hlen : (m ++ [some (Cell.list 0 ⟨(default : α), none⟩)]).length = m.length + 1 := by simp
  have ho1 : Owns (m ++ [some (Cell.list 0 ⟨default, none⟩)]) other s ns :=
    owns_frame h (frame_alloc _ _ []) (by simp) (by simp)
  obtain ⟨n, more, h1, h2, h3, h4, h5⟩ := Assign_owns (ConstIterator .main_cpp) end_ m.length
    (fun it vs mem => ∃ l : List (Nat × α), it = ⟨linkTo l none⟩ ∧ Seg mem l none ∧
      l.map Prod.snd = vs ∧ ∀ x ∈ l, x.1 < m.length)
    (by
      rintro it mem ⟨l, rfl, _, hl, _⟩
      have : l = [] := by simpa using hl
      subst this
      rfl)
    (by
      rintro it v vs mem ⟨l, rfl, hs, hl, _⟩
      cases l with
      | nil => simp at hl
      | cons x rest =>
        simp only [List.map_cons, List.cons.injEq] at hl
        refine ⟨rfl, ?_⟩
        rw [← hl.1]
        exact deref_node _ hs.1)
    (by
      rintro it v vs mem k ⟨l, rfl, hs, hl, hb⟩ _ _ hag
      cases l with
      | nil => simp at hl
      | cons x rest =>
        simp only [List.map_cons, List.cons.injEq] at hl
        have hs' : Seg k (x :: rest) none := seg_congr (fun y hy => hag _ (hb y hy)) hs
        exact ⟨⟨linkTo rest none⟩, pre_inc_node _ hs'.1, rest, rfl, hs'.2, hl.2,
          fun y hy => hb y (List.mem_cons_of_mem _ hy)⟩)
    (owns_alloc m) (by omega) (ns.map Prod.snd)
    (m ++ [some (Cell.list 0 ⟨default, none⟩)]).length ⟨linkTo ns none⟩
    (by
      have := seg_length_le h.2.1 h.2.2
      simp only [List.length_map, hlen]
      omega)
    (by simpa using hsz)
    ⟨ns, rfl, seg_congr (fun y hy => by
        rw [get_alloc_old _ (by rw [hlen]; have := seg_lt h.2.1 hy; omega),
          get_alloc_old _ (seg_lt h.2.1 hy)]) h.2.1, rfl, fun y hy => seg_lt h.2.1 hy⟩
  refine ⟨n, more, ?_, by simpa using h2, h3, fun x hx => ?_, ?_⟩
  · simp only [SingleLinkedList_copy, alloc, begin_owns ho1, ok_bind]
    rw [h1]
    rfl
  · have := h4 x hx
    omega
  · refine ⟨by have := h5.1; omega, fun a ha _ => ?_⟩
    rw [h5.2 a (by omega) (by simp [addrs]; omega), get_alloc_old _ ha]

theorem not_mem_addrs {a this : Nat} {ns : List (Nat × α)} (h1 : a ≠ this)
    (h2 : ∀ x ∈ ns, a ≠ x.1) : a ∉ addrs this ns := by
  intro hc
  simp only [addrs, List.mem_cons, List.mem_map] at hc
  rcases hc with hc | ⟨y, hy, hc⟩
  · exact h1 hc
  · exact h2 y hy hc.symm

theorem copy_header_owns [Inhabited α] {m : Memory α} {other s : Nat} {ns : List (Nat × α)}
    (h : Owns m other s ns) (hsz : ns.length ≤ SIZE_MAX) :
    ∃ n more, SingleLinkedList_copy .single_linked_list_h other m = .ok (m.length, n) ∧
      Owns n m.length ns.length more ∧ more.map Prod.snd = ns.map Prod.snd ∧
      (∀ x ∈ more, m.length < x.1) ∧ Frame m n [] := by
  have hol := owns_this_lt h
  have hnl : ∀ x ∈ ns, x.1 < m.length := fun x hx => seg_lt h.2.1 hx
  -- the three fresh objects
  have f1 : Frame m (m ++ [some (Cell.list 0 ⟨(default : α), none⟩)]) [] := frame_alloc _ _ _
  have f2 : Frame (m ++ [some (Cell.list 0 ⟨(default : α), none⟩)])
      (m ++ [some (Cell.list 0 ⟨(default : α), none⟩)] ++ [some (Cell.list 0 ⟨default, none⟩)]) [] :=
    frame_alloc _ _ _
  have f3 : Frame
      (m ++ [some (Cell.list 0 ⟨(default : α), none⟩)] ++ [some (Cell.list 0 ⟨default, none⟩)])
      (m ++ [some (Cell.list 0 ⟨(default : α), none⟩)] ++ [some (Cell.list 0 ⟨default, none⟩)] ++
        [some (Cell.list 0 ⟨default, none⟩)]) [] := frame_alloc _ _ _
  have l1 : (m ++ [some (Cell.list 0 ⟨(default : α), none⟩)]).length = m.length + 1 := by simp
  have l2 : (m ++ [some (Cell.list 0 ⟨(default : α), none⟩)] ++
      [some (Cell.list 0 ⟨default, none⟩)]).length = m.length + 2 := by simp
  have l3 : (m ++ [some (Cell.list 0 ⟨(default : α), none⟩)] ++
      [some (Cell.list 0 ⟨default, none⟩)] ++
      [some (Cell.list 0 ⟨default, none⟩)]).length = m.length + 3 := by simp
  have hthis1 := owns_alloc (α := α) m
  have hthis3 := owns_frame (owns_frame hthis1 f2 (by simp) (by simp)) f3 (by simp) (by simp)
  have hval2 := owns_alloc (m ++ [some (Cell.list 0 ⟨(default : α), none⟩)])
  have hval3 := owns_frame hval2 f3 (by simp) (by simp)
  have hrev3 := owns_alloc
    (m ++ [some (Cell.list 0 ⟨(default : α), none⟩)] ++ [some (Cell.list 0 ⟨default, none⟩)])
  have hoth1 := owns_frame h f1 (by simp) (by simp)
  have hoth3 := owns_frame (owns_frame hoth1 f2 (by simp) (by simp)) f3 (by simp) (by simp)
  rw [l1] at hval2 hval3
  rw [l2] at hrev3
  -- first loop: values_reverse receives the elements of other
  obtain ⟨m4, rev, h1, h2, h3, h4, h5⟩ := pushEach_owns .single_linked_list_h ns _
    (m ++ [some (Cell.list 0 ⟨(default : α), none⟩)] ++ [some (Cell.list 0 ⟨default, none⟩)] ++
      [some (Cell.list 0 ⟨default, none⟩)]).length 0 [] hoth3.2.1 hrev3
    (by
      intro x hx hc
      have := hnl x hx
      simp [addrs] at hc
      omega)
    (by have := seg_length_le h.2.1 h.2.2; rw [l3]; omega) (by omega)
  rw [List.append_nil, Nat.zero_add] at h2
  rw [l3] at h4
  have hm4 : m.length + 3 ≤ m4.length := by have := h5.1; rw [l3] at this; exact this
  have hthis4 := owns_frame hthis3 h5 (by simp [addrs]) (by simp)
  have hval4 := owns_frame hval3 h5 (by simp [addrs]) (by simp)
  -- second loop: values receives the elements of values_reverse
  obtain ⟨m5, fwd, h6, h7, h8, h9, h10⟩ := pushEach_owns .single_linked_list_h rev m4
    m4.length 0 [] h2.2.1 hval4
    (by
      intro x hx hc
      have := h4 x hx
      simp [addrs] at hc
      omega)
    (seg_length_le h2.2.1 h2.2.2)
    (by
      have e := congrArg List.length h3
      simp only [List.length_map, List.length_reverse] at e
      omega)
  rw [List.append_nil, Nat.zero_add] at h7
  have hfwd : ∀ x ∈ fwd, m.length + 3 ≤ x.1 := fun x hx => le_trans hm4 (h9 x hx)
  have hthis5 := owns_frame hthis4 h10 (by simp [addrs]) (by simp)
  have hrev5 := owns_frame h2 h10 (by simp [addrs]) (fun x hx hc => by
    have := h4 x hx
    simp [addrs] at hc
    omega)
  -- swap(values), then both temporaries are destroyed
  obtain ⟨m6, h11, h12, h13, h14, h15⟩ := swap_owns hthis5 h7 (by omega)
  have hrev6 := owns_frame hrev5 h14 (by simp) (fun x hx hc => by
    have := h4 x hx
    simp at hc
    omega)
  obtain ⟨m7, h16, h17, h18⟩ := destroy_owns hrev6
  have hdis : ∀ x ∈ fwd, x.1 ∉ List.map Prod.fst rev := by
    intro x hx hc
    rcases List.mem_map.mp hc with ⟨y, hy, hye⟩
    have := h9 x hx
    have := seg_lt h2.2.1 hy
    omega
  have hthis7 := owns_frame h12 h17
    (not_mem_addrs (by omega) (fun y hy => by have := h4 y hy; omega))
    (fun x hx hc => by
      have := hfwd x hx
      simp only [addrs, List.mem_cons] at hc
      rcases hc with hc | hc
      · omega
      · exact hdis x hx hc)
  have hval7 := owns_frame h13 h17
    (not_mem_addrs (by omega) (fun y hy => by have := h4 y hy; omega)) (by simp)
  obtain ⟨m8, h19, h20, h21⟩ := destroy_owns hval7
  have hthis8 := owns_frame hthis7 h20 (by simp [addrs]) (fun x hx hc => by
    have := hfwd x hx
    simp [addrs] at hc
    omega)
  have hlen : fwd.length = ns.length := by
    have e1 := congrArg List.length h8
    have e2 := congrArg List.length h3
    simp at e1 e2
    omega
  refine ⟨m8, fwd, ?_, ?_, ?_, fun x hx => by have := hfwd x hx; omega, ?_⟩
  · simp only [SingleLinkedList_copy, alloc, SingleLinkedList, ok_bind, pure_eq_ok,
      loadSize_list hthis1.1, load_list hthis1.1, SLL.assert, l1, l2]
    simp only [beq_self_eq_true, Bool.and_self, if_true, ok_bind, linkTo_nil,
      begin_owns hoth3]
    rw [h1]
    simp only [ok_bind, begin_owns h2]
    rw [h6]
    simp only [ok_bind]
    rw [h11]
    simp only [ok_bind]
    rw [h16]
    simp only [ok_bind]
    rw [h19]
    rfl
  · have e : rev.length = ns.length := by
      have e2 := congrArg List.length h3
      simpa using e2
    rw [← e]
    exact hthis8
  · rw [h8, h3, List.reverse_reverse]
  · have hm5 := h10.1
    refine ⟨by omega, fun a ha _ => ?_⟩
    have e8 : m8[a]? = m7[a]? := h20.2 a (by omega) (by simp [addrs]; omega)
    have e7 : m7[a]? = m6[a]? := h17.2 a (by omega)
      (not_mem_addrs (by omega) (fun y hy => by have := h4 y hy; omega))
    have e6 : m6[a]? = m5[a]? := h14.2 a (by omega) (by simp; omega)
    have e5 : m5[a]? = m4[a]? := h10.2 a (by omega) (by simp [addrs]; omega)
    have e4 := h5.2 a (by rw [l3]; omega) (by simp [addrs]; omega)
    rw [e8, e7, e6, e5, e4, get_alloc_old _ (by rw [l2]; omega),
      get_alloc_old _ (by rw [l1]; omega), get_alloc_old _ ha]

theorem copy_owns [Inhabited α] (src : Source) {m : Memory α} {other s : Nat}
    {ns : List (Nat × α)} (h : Owns m other s ns) (hsz : ns.length ≤ SIZE_MAX) :
    ∃ n more, SingleLinkedList_copy src other m = .ok (m.length, n) ∧
      Owns n m.length ns.length more ∧ more.map Prod.snd = ns.map Prod.snd ∧
      (∀ x ∈ more, m.length < x.1) ∧ Frame m n [] := by
  cases src
  · exact copy_main_owns h hsz
  · exact copy_header_owns h hsz

theorem std_equal_same [DecidableEq α] (src : Source) {m : Memory α} (ns : List (Nat × α)) :
    ∀ (ms : List (Nat × α)) (fuel : Nat), Seg m ns none → Seg m ms none →
      ns.map Prod.snd = ms.map Prod.snd → ns.length ≤ fuel →
      std_equal src end_ fuel ⟨linkTo ns none⟩ ⟨linkTo ms none⟩ m = .ok true := by
  induction ns with
  | nil =>
    intro ms fuel _ _ _ _
    unfold std_equal
    simp [operator_ne, end_, linkTo_nil, pure_eq_ok]
  | cons x s ih =>
    intro ms fuel hn hm he hf
    cases ms with
    | nil => simp at he
    | cons y t =>
      cases fuel with
      | zero => simp at hf
      | succ fuel =>
        simp only [List.map_cons, List.cons.injEq] at he
        have h1 : std_equal src ⟨none⟩ fuel ⟨linkTo s none⟩ ⟨linkTo t none⟩ m = .ok true :=
          ih t fuel hn.2 hm.2 he.2 (by simpa using hf)
        unfold std_equal
        simp [operator_ne, end_, linkTo_cons, deref_node src hn.1, deref_node src hm.1,
          ok_bind, he.1, pre_inc_node src hn.1, pre_inc_node src hm.1, h1]

theorem observe_owns [Inhabited α] (src : Source) {m : Memory α} {this s : Nat}
    {ns : List (Nat × α)} (h : Owns m this s ns) :
    observe src this m = .ok (ns.map Prod.snd, s) := by
  simp [observe, elements_owns src h, GetSize_owns h, ok_bind, pure_eq_ok]

/-! ## Copy independence (C7) -/

/-- C7 as stated fails on the code: the list `S` constructed from `{7}` and subjected
to `EraseAfter(before_begin())` has `GetSize() == 1`, and its copy `T` has
`GetSize() == 0`; in both source files. -/
theorem copy_size_differs :
    (∃ S m it n T k, SingleLinkedList_values .main_cpp [7] ([] : Memory Nat) = .ok (S, m) ∧
      EraseAfter .main_cpp S (before_begin S) m = .ok (it, n) ∧
      SingleLinkedList_copy .main_cpp S n = .ok (T, k) ∧
      GetSize S k = .ok 1 ∧ GetSize T k = .ok 0) ∧
    (∃ S m it n T k,
      SingleLinkedList_values .single_linked_list_h [7] ([] : Memory Nat) = .ok (S, m) ∧
      EraseAfter .single_linked_list_h S (before_begin S) m = .ok (it, n) ∧
      SingleLinkedList_copy .single_linked_list_h S n = .ok (T, k) ∧
      GetSize S k = .ok 1 ∧ GetSize T k = .ok 0) :=
  ⟨⟨_, _, _, _, _, _, rfl, rfl, rfl, rfl, rfl⟩, ⟨_, _, _, _, _, _, rfl, rfl, rfl, rfl, rfl⟩⟩

/-- C7, amended: for every list `S`, holding `x0 .. x(n-1)`, the copy constructor of
either source file returns a list `T` with the same elements in the same order and
with `GetSize() == n`, `T == S` is true, and `S` shows the same elements and size as
before the copy; after a further `PushFront`, `PopFront`, `InsertAfter`, `EraseAfter`
or `Clear` on `T`, `S` still shows the same elements and size.  The number `n` of
nodes is a `size_t` (`hlen`): the nodes of a list are distinct objects, and the copy
counts them with `++size_`. -/
theorem copy_independent [Inhabited α] [DecidableEq α] (src : Source) (m : Memory α)
    (S s : Nat) (ns : List (Nat × α)) (hS : Owns m S s ns) (hlen : ns.length ≤ SIZE_MAX) :
    observe src S m = .ok (ns.map Prod.snd, s) ∧
    ∃ T n, SingleLinkedList_copy src S m = .ok (T, n) ∧
      observe src T n = .ok (ns.map Prod.snd, ns.length) ∧
      operator_eq_list src T S n = .ok true ∧
      observe src S n = .ok (ns.map Prod.snd, s) ∧
      (∀ v, ∃ k, PushFront T v n = .ok k ∧ observe src S k = .ok (ns.map Prod.snd, s)) ∧
      (ns ≠ [] → ∃ k, PopFront T n = .ok k ∧ observe src S k = .ok (ns.map Prod.snd, s)) ∧
      (∀ j pos v, j ≤ ns.length → advance src j (before_begin T) n = .ok pos →
        ∃ it k, InsertAfter src T pos v n = .ok (it, k) ∧
          observe src S k = .ok (ns.map Prod.snd, s)) ∧
      (∀ j pos, j < ns.length → advance src j (before_begin T) n = .ok pos →
        ∃ it k, EraseAfter src T pos n = .ok (it, k) ∧
          observe src S k = .ok (ns.map Prod.snd, s)) ∧
      (∃ k, Clear T n = .ok k ∧ observe src S k = .ok (ns.map Prod.snd, s)) := by
  obtain ⟨n, more, h1, h2, h3, h4, h5⟩ := copy_owns src hS hlen
  have hSl := owns_this_lt hS
  have hSn : Owns n S s ns := owns_frame hS h5 (by simp) (by simp)
  have hlen : more.length = ns.length := by
    have := congrArg List.length h3
    simpa using this
  -- a change within the storage of `T` leaves `S` as it is
  have keep : ∀ k, Frame n k (addrs m.length more) →
      observe src S k = .ok (ns.map Prod.snd, s) := by
    intro k hk
    refine observe_owns src (owns_frame hSn hk ?_ ?_)
    · exact not_mem_addrs (by omega) (fun x hx => by have := h4 x hx; omega)
    · intro x hx
      have := seg_lt hS.2.1 hx
      exact not_mem_addrs (by omega) (fun y hy => by have := h4 y hy; omega)
  refine ⟨observe_owns src hS, m.length, n, h1, ?_, ?_, observe_owns src hSn, ?_, ?_, ?_, ?_, ?_⟩
  · rw [observe_owns src h2, h3]
  · simp only [operator_eq_list, begin_owns h2, begin_owns hSn, ok_bind]
    exact std_equal_same src more ns n.length h2.2.1 hSn.2.1 h3 (seg_length_le h2.2.1 h2.2.2)
  · intro v
    obtain ⟨k, hk1, _, hk3⟩ := PushFront_owns h2 v
    exact ⟨k, hk1, keep k hk3⟩
  · intro hne
    cases more with
    | nil =>
      have : ns = [] := by simpa using hlen.symm
      exact absurd this hne
    | cons y post =>
      obtain ⟨k, hk1, _, hk3, _⟩ := PopFront_owns h2 (by
        intro h0
        rw [← hlen] at h0
        simp at h0)
      exact ⟨k, hk1, keep k hk3⟩
  · intro j pos v hj hpos
    have hp := pos_of_advance h2 (by omega) hpos
    subst hp
    obtain ⟨k, hk1, _, hk3⟩ := InsertAfter_at src h2 j (by omega) v
    exact ⟨_, k, hk1, keep k hk3⟩
  · intro j pos hj hpos
    have hp := pos_of_advance h2 (by omega) hpos
    subst hp
    obtain ⟨k, hk1, _, hk3, _⟩ := EraseAfter_at src h2 j (by omega)
    exact ⟨_, k, hk1, keep k hk3⟩
  · obtain ⟨k, hk1, _, hk3, _⟩ := Clear_owns h2
    exact ⟨k, hk1, keep k hk3⟩

/-- Witness for C7: the list `{1, 2, 3}` of `sample`. -/
theorem copy_independent_witness :
    Owns sample 0 3 [(2, 1), (3, 2), (4, 3)] ∧ [(2, 1), (3, 2), (4, 3)].length ≤ SIZE_MAX ∧
    observe .main_cpp 0 sample = .ok ([1, 2, 3], 3) ∧
    ∃ T n, SingleLinkedList_copy .main_cpp 0 sample = .ok (T, n) ∧
      observe .main_cpp T n = .ok ([1, 2, 3], 3) ∧
      operator_eq_list .main_cpp T 0 n = .ok true ∧
      observe .main_cpp 0 n = .ok ([1, 2, 3], 3) ∧
      (∀ v, ∃ k, PushFront T v n = .ok k ∧ observe .main_cpp 0 k = .ok ([1, 2, 3], 3)) ∧
      ([(2, 1), (3, 2), (4, 3)] ≠ [] →
        ∃ k, PopFront T n = .ok k ∧ observe .main_cpp 0 k = .ok ([1, 2, 3], 3)) ∧
      (∀ j pos v, j ≤ 3 → advance .main_cpp j (before_begin T) n = .ok pos →
        ∃ it k, InsertAfter .main_cpp T pos v n = .ok (it, k) ∧
          observe .main_cpp 0 k = .ok ([1, 2, 3], 3)) ∧
      (∀ j pos, j < 3 → advance .main_cpp j (before_begin T) n = .ok pos →
        ∃ it k, EraseAfter .main_cpp T pos n = .ok (it, k) ∧
          observe .main_cpp 0 k = .ok ([1, 2, 3], 3)) ∧
      (∃ k, Clear T n = .ok k ∧ observe .main_cpp 0 k = .ok ([1, 2, 3], 3)) :=
  ⟨by decide, by decide,
    copy_independent .main_cpp sample 0 3 [(2, 1), (3, 2), (4, 3)] (by decide) (by decide)⟩

/-! ## PushFront and InsertAfter at the sentinel (C14, C18, C11) -/

theorem error_bind {ε β γ : Type} (e : ε) (f : β → Except ε γ) :
    (Except.error e >>= f) = Except.error e := rfl

theorem PushFront_eq_InsertAfter (src : Source) (this : Nat) (v : α) (m : Memory α) :
    PushFront this v m =
      (InsertAfter src this (before_begin this) v m).map Prod.snd := by
  cases src <;>
  · simp only [PushFront, InsertAfter, before_begin, Source.assert, SLL.assert, alloc]
    cases load m (some this) with
    | error e => simp [error_bind, ok_bind, Except.map]
    | ok hd =>
      simp only [ok_bind, bne_iff_ne, ne_eq, reduceCtorEq, not_false_eq_true, if_true]
      cases storeNext (m ++ [some (Cell.node ⟨v, hd.next_node⟩)]) (some this) (some m.length) with
      | error e => simp [error_bind, Except.map]
      | ok m2 =>
        simp only [ok_bind]
        cases loadSize m2 this with
        | error e => simp [error_bind, Except.map]
        | ok sz =>
          simp only [ok_bind]
          cases storeSize m2 this (inc_size_t sz) with
          | error e => simp [error_bind, Except.map]
          | ok m3 => simp [ok_bind, pure_eq_ok, Except.map]

theorem IsEmpty_owns [Inhabited α] {m : Memory α} {this s : Nat} {ns : List (Nat × α)}
    (h : Owns m this s ns) : IsEmpty this m = .ok (s == 0) := by
  simp [IsEmpty, loadSize_list h.1, ok_bind, pure_eq_ok]

/-- C14 as stated fails on the code: on the empty list of `at_max`, whose `GetSize()` is
`SIZE_MAX`, `PushFront(9)` makes 9 the only element and leaves `GetSize() == 0`, not
one more than before; in both source files. -/
theorem PushFront_size_wraps :
    Owns at_max 0 SIZE_MAX [] ∧
    observe .main_cpp 0 at_max = .ok ([], SIZE_MAX) ∧
    observe .single_linked_list_h 0 at_max = .ok ([], SIZE_MAX) ∧
    ∃ n, PushFront 0 9 at_max = .ok n ∧
      observe .main_cpp 0 n = .ok ([9], 0) ∧
      observe .single_linked_list_h 0 n = .ok ([9], 0) :=
  ⟨by decide, rfl, rfl, _, rfl, rfl, rfl⟩

/-- C14, amended: on a list holding `x0 .. x(n-1)`, `PushFront(v)` returns; afterwards
the list holds `v, x0 .. x(n-1)`, `*begin()` is `v`, and `GetSize()` is the former value
incremented as a `size_t`, which is one more than before whenever the former value is
below `SIZE_MAX`. -/
theorem PushFront_correct [Inhabited α] (src : Source) (m : Memory α) (this s : Nat)
    (ns : List (Nat × α)) (v : α) (hown : Owns m this s ns) :
    observe src this m = .ok (ns.map Prod.snd, s) ∧
    ∃ n, PushFront this v m = .ok n ∧
      observe src this n = .ok (v :: ns.map Prod.snd, (s + 1) % (SIZE_MAX + 1)) ∧
      (s < SIZE_MAX → observe src this n = .ok (v :: ns.map Prod.snd, s + 1)) ∧
      ∃ b, begin_ this n = .ok b ∧ operator_deref src b n = .ok v := by
  obtain ⟨n, h1, h2, _⟩ := PushFront_owns hown v
  refine ⟨observe_owns src hown, n, h1, observe_owns src h2, ?_, _, begin_owns h2, ?_⟩
  · intro hs
    rw [observe_owns src h2, inc_size_t_of_lt hs]
    rfl
  · exact deref_node src h2.2.1.1

/-- Witness for C14: `PushFront(9)` on `{1, 2, 3}`. -/
theorem PushFront_correct_witness :
    Owns sample 0 3 [(2, 1), (3, 2), (4, 3)] ∧
    observe .main_cpp 0 sample = .ok ([1, 2, 3], 3) ∧
    ∃ n, PushFront 0 9 sample = .ok n ∧
      observe .main_cpp 0 n = .ok ([9, 1, 2, 3], (3 + 1) % (SIZE_MAX + 1)) ∧
      (3 < SIZE_MAX → observe .main_cpp 0 n = .ok ([9, 1, 2, 3], 3 + 1)) ∧
      ∃ b, begin_ 0 n = .ok b ∧ operator_deref .main_cpp b n = .ok 9 :=
  ⟨by decide, PushFront_correct .main_cpp sample 0 3 [(2, 1), (3, 2), (4, 3)] 9 (by decide)⟩

/-- C18: on every list and for every value `v`, `PushFront(v)` and
`InsertAfter(before_begin(), v)` both return and leave the same memory, hence the same
list: `v` followed by the former elements, with `GetSize()` the former value
incremented as a `size_t`. -/
theorem PushFront_special_case [Inhabited α] (src : Source) (m : Memory α) (this s : Nat)
    (ns : List (Nat × α)) (v : α) (hown : Owns m this s ns) :
    ∃ it n, InsertAfter src this (before_begin this) v m = .ok (it, n) ∧
      PushFront this v m = .ok n ∧
      observe src this n = .ok (v :: ns.map Prod.snd, (s + 1) % (SIZE_MAX + 1)) := by
  obtain ⟨n, h1, h2, _⟩ := InsertAfter_head src hown v
  refine ⟨_, n, h1, ?_, observe_owns src h2⟩
  rw [PushFront_eq_InsertAfter src, h1]
  rfl

/-- Witness for C18: `{1, 2, 3}` and the value 9, in `single-linked-list.h`. -/
theorem PushFront_special_case_witness :
    Owns sample 0 3 [(2, 1), (3, 2), (4, 3)] ∧
    ∃ it n, InsertAfter .single_linked_list_h 0 (before_begin 0) 9 sample = .ok (it, n) ∧
      PushFront 0 9 sample = .ok n ∧
      observe .single_linked_list_h 0 n = .ok ([9, 1, 2, 3], (3 + 1) % (SIZE_MAX + 1)) :=
  ⟨by decide,
    PushFront_special_case .single_linked_list_h sample 0 3 [(2, 1), (3, 2), (4, 3)] 9
      (by decide)⟩

/-- C11 as stated fails on the code: on the empty list of `at_max`, whose `GetSize()` is
`SIZE_MAX`, `InsertAfter(before_begin(), 9)` returns and leaves `GetSize() == 0`, so
that the `assert(!IsEmpty())` of the following `PopFront()` fails and the list still
holds 9; in both source files. -/
theorem round_trip_fails_at_max :
    Owns at_max 0 SIZE_MAX [] ∧
    (∃ it n, InsertAfter .main_cpp 0 (before_begin 0) 9 at_max = .ok (it, n) ∧
      observe .main_cpp 0 n = .ok ([9], 0) ∧ PopFront 0 n = .error .assertion) ∧
    (∃ it n, InsertAfter .single_linked_list_h 0 (before_begin 0) 9 at_max = .ok (it, n) ∧
      observe .single_linked_list_h 0 n = .ok ([9], 0) ∧
      PopFront 0 n = .error .assertion) :=
  ⟨by decide, ⟨_, _, rfl, rfl, rfl⟩, ⟨_, _, rfl, rfl, rfl⟩⟩

/-- C11, amended: on every list whose `GetSize()` is below `SIZE_MAX` and for every
value `v`, `InsertAfter(before_begin(), v)` and then `PopFront()` both return, and the
list shows the same elements in the same order and the same `GetSize()` as before the
two calls. -/
theorem InsertAfter_PopFront_round_trip [Inhabited α] (src : Source) (m : Memory α)
    (this s : Nat) (ns : List (Nat × α)) (v : α) (hown : Owns m this s ns)
    (hs : s < SIZE_MAX) :
    observe src this m = .ok (ns.map Prod.snd, s) ∧
    ∃ it n k, InsertAfter src this (before_begin this) v m = .ok (it, n) ∧
      PopFront this n = .ok k ∧
      observe src this k = .ok (ns.map Prod.snd, s) := by
  obtain ⟨n, h1, h2, _⟩ := InsertAfter_head src hown v
  rw [inc_size_t_of_lt hs] at h2
  obtain ⟨k, h3, h4, _⟩ := PopFront_owns h2 (Nat.succ_ne_zero s)
  exact ⟨observe_owns src hown, _, n, k, h1, h3, observe_owns src h4⟩

/-- Witness for C11: `{1, 2, 3}` and the value 9. -/
theorem InsertAfter_PopFront_round_trip_witness :
    Owns sample 0 3 [(2, 1), (3, 2), (4, 3)] ∧ 3 < SIZE_MAX ∧
    observe .main_cpp 0 sample = .ok ([1, 2, 3], 3) ∧
    ∃ it n k, InsertAfter .main_cpp 0 (before_begin 0) 9 sample = .ok (it, n) ∧
      PopFront 0 n = .ok k ∧
      observe .main_cpp 0 k = .ok ([1, 2, 3], 3) :=
  ⟨by decide, by decide,
    InsertAfter_PopFront_round_trip .main_cpp sample 0 3 [(2, 1), (3, 2), (4, 3)] 9
      (by decide) (by decide)⟩

/-! ## A counter at `SIZE_MAX`

`EraseAfter` removes a node and leaves `size_` as it is, so every pair of calls
`InsertAfter(before_begin(), v)`, `EraseAfter(before_begin())` on an empty list returns
to an empty list whose counter is one further, as a `size_t`.  After `SIZE_MAX` pairs
on a default-constructed list the counter stands at `SIZE_MAX`, as in `at_max`. -/

theorem inc_size_t_mod (s : Nat) :
    inc_size_t (s % (SIZE_MAX + 1)) = (s + 1) % (SIZE_MAX + 1) := by
  unfold inc_size_t
  exact Nat.mod_add_mod s (SIZE_MAX + 1) 1

theorem churn_owns [Inhabited α] (src : Source) {this : Nat} (v : α) :
    ∀ (k : Nat) (m : Memory α) (s : Nat), Owns m this (s % (SIZE_MAX + 1)) [] →
      ∃ n, churn src this v k m = .ok n ∧ Owns n this ((s + k) % (SIZE_MAX + 1)) [] := by
  intro k
  induction k with
  | zero =>
    intro m s h
    exact ⟨m, by simp [churn, pure_eq_ok], h⟩
  | succ k ih =>
    intro m s h
    obtain ⟨n1, h1, h2, _⟩ := InsertAfter_head src h v
    rw [inc_size_t_mod] at h2
    obtain ⟨n2, h3, h4, _⟩ := EraseAfter_head src h2
    obtain ⟨n, h5, h6⟩ := ih n2 (s + 1) h4
    refine ⟨n, ?_, ?_⟩
    · unfold churn
      simp only [h1, ok_bind, h3]
      exact h5
    · rw [show s + (k + 1) = s + 1 + k by omega]
      exact h6

theorem size_max_reachable (src : Source) :
    ∃ n, churn src (SingleLinkedList ([] : Memory Nat)).1 9 SIZE_MAX
        (SingleLinkedList ([] : Memory Nat)).2 = .ok n ∧
      Owns n (SingleLinkedList ([] : Memory Nat)).1 SIZE_MAX [] := by
  have h := churn_owns src (9 : Nat) SIZE_MAX _ 0 (owns_alloc ([] : Memory Nat))
  rw [Nat.zero_add, Nat.mod_eq_of_lt (Nat.lt_succ_self SIZE_MAX)] at h
  exact h

/-! ## The counter never falls below the number of nodes

The constructors set `size_` to the number of nodes (`values_owns`, `copy_owns`), `swap`
exchanges counters together with chains (`swap_owns`), and the mutators keep
`size_` at or above the number of nodes, as long as `++size_` does not wrap: the
counter is below `SIZE_MAX` when an element is added.  So a list that has an element
has `IsEmpty() == false` until then. -/

theorem counter_bound_kept [Inhabited α] (src : Source) {m : Memory α} {this s : Nat}
    {ns : List (Nat × α)} (h : Owns m this s ns) (hb : ns.length ≤ s) :
    (s < SIZE_MAX →
      ∀ v, ∃ n t l, PushFront this v m = .ok n ∧ Owns n this t l ∧ l.length ≤ t) ∧
    (ns ≠ [] → ∃ n t l, PopFront this m = .ok n ∧ Owns n this t l ∧ l.length ≤ t) ∧
    (s < SIZE_MAX → ∀ k v, k ≤ ns.length → ∃ it n t l,
      InsertAfter src this ⟨(addrs this ns)[k]?⟩ v m = .ok (it, n) ∧ Owns n this t l ∧
        l.length ≤ t) ∧
    (∀ k, k < ns.length → ∃ it n t l,
      EraseAfter src this ⟨(addrs this ns)[k]?⟩ m = .ok (it, n) ∧ Owns n this t l ∧
        l.length ≤ t) ∧
    (∃ n t l, Clear this m = .ok n ∧ Owns n this t l ∧ l.length ≤ t) := by
  refine ⟨fun hs v => ?_, fun hne => ?_, fun hs k v hk => ?_, fun k hk => ?_, ?_⟩
  · obtain ⟨n, h1, h2, _⟩ := PushFront_owns h v
    rw [inc_size_t_of_lt hs] at h2
    exact ⟨n, _, _, h1, h2, by simpa using hb⟩
  · cases ns with
    | nil => exact absurd rfl hne
    | cons y post =>
      have hs : s ≠ 0 := by
        simp only [List.length_cons] at hb
        omega
      obtain ⟨n, h1, h2, _⟩ := PopFront_owns h hs
      exact ⟨n, _, _, h1, h2, by simp only [List.length_cons] at hb; omega⟩
  · obtain ⟨n, h1, h2, _⟩ := InsertAfter_at src h k hk v
    rw [inc_size_t_of_lt hs] at h2
    refine ⟨_, n, _, _, h1, h2, ?_⟩
    simp only [List.length_append, List.length_take, List.length_cons, List.length_drop]
    omega
  · obtain ⟨n, h1, h2, _⟩ := EraseAfter_at src h k hk
    refine ⟨_, n, _, _, h1, h2, ?_⟩
    rw [List.length_eraseIdx]
    split <;> omega
  · obtain ⟨n, h1, h2, _⟩ := Clear_owns h
    exact ⟨n, _, _, h1, h2, by simp⟩

theorem IsEmpty_false_of_bound [Inhabited α] {m : Memory α} {this s : Nat}
    {ns : List (Nat × α)} (h : Owns m this s ns) (hb : ns.length ≤ s) (hne : ns ≠ []) :
    IsEmpty this m = .ok false := by
  rw [IsEmpty_owns h]
  cases ns with
  | nil => exact absurd rfl hne
  | cons y post =>
    simp only [List.length_cons] at hb
    have : s ≠ 0 := by omega
    simp [this]

/-! ## PopFront and Clear (C15, C16) -/

/-- C16: on every list, `Clear()` returns; afterwards the list has no elements,
`begin() == end()`, `GetSize()` is 0 and `IsEmpty()` is true; a second `Clear()` returns
and leaves the list in that state. -/
theorem Clear_correct [Inhabited α] (src : Source) (m : Memory α) (this s : Nat)
    (ns : List (Nat × α)) (hown : Owns m this s ns) :
    ∃ n, Clear this m = .ok n ∧ observe src this n = .ok ([], 0) ∧
      begin_ this n = .ok end_ ∧ IsEmpty this n = .ok true ∧
      ∃ k, Clear this n = .ok k ∧ observe src this k = .ok ([], 0) ∧
        begin_ this k = .ok end_ ∧ IsEmpty this k = .ok true := by
  obtain ⟨n, h1, h2, _⟩ := Clear_owns hown
  obtain ⟨k, h3, h4, _⟩ := Clear_owns h2
  exact ⟨n, h1, observe_owns src h2, begin_owns h2, IsEmpty_owns h2, k, h3,
    observe_owns src h4, begin_owns h4, IsEmpty_owns h4⟩

/-- Witness for C16: `Clear()` on `{1, 2, 3}`. -/
theorem Clear_correct_witness :
    Owns sample 0 3 [(2, 1), (3, 2), (4, 3)] ∧
    ∃ n, Clear 0 sample = .ok n ∧ observe .main_cpp 0 n = .ok ([], 0) ∧
      begin_ 0 n = .ok end_ ∧ IsEmpty 0 n = .ok true ∧
      ∃ k, Clear 0 n = .ok k ∧ observe .main_cpp 0 k = .ok ([], 0) ∧
        begin_ 0 k = .ok end_ ∧ IsEmpty 0 k = .ok true :=
  ⟨by decide, Clear_correct .main_cpp sample 0 3 [(2, 1), (3, 2), (4, 3)] (by decide)⟩

/-! ## swap (C13) -/

theorem swap_self_owns [Inhabited α] {m : Memory α} {a s : Nat} {ns : List (Nat × α)}
    (ha : Owns m a s ns) :
    ∃ n, swap a a m = .ok n ∧ Owns n a s ns ∧ Frame m n [a] ∧ n.length = m.length := by
  have h1 := get_set_self (some (Cell.list s ⟨default, linkTo ns none⟩)) ha.1
  have h2 := get_set_self (some (Cell.list s ⟨default, linkTo ns none⟩)) h1
  have h3 := get_set_self (some (Cell.list s ⟨default, linkTo ns none⟩)) h2
  have h4 := get_set_self (some (Cell.list s ⟨default, linkTo ns none⟩)) h3
  refine ⟨(((m.set a (some (Cell.list s ⟨default, linkTo ns none⟩))).set a
      (some (Cell.list s ⟨default, linkTo ns none⟩))).set a
      (some (Cell.list s ⟨default, linkTo ns none⟩))).set a
      (some (Cell.list s ⟨default, linkTo ns none⟩)), ?_, ⟨h4, ?_, ha.2.2⟩,
      ⟨by simp, fun c _ hc => ?_⟩, by simp⟩
  · simp only [swap, loadSize_list ha.1, ok_bind, storeSize_list _ ha.1, storeSize_list _ h1,
      load_list h2, storeNext_list _ h2, storeNext_list _ h3]
  · refine seg_congr (fun x hx => ?_) ha.2.1
    have hne := (owns_ne ha hx).symm
    rw [get_set_ne _ hne, get_set_ne _ hne, get_set_ne _ hne, get_set_ne _ hne]
  · have hne : a ≠ c := fun he => hc (by simp [he])
    rw [get_set_ne _ hne, get_set_ne _ hne, get_set_ne _ hne, get_set_ne _ hne]

theorem swap_observe [Inhabited α] (src : Source) {m : Memory α} {a b s t : Nat}
    {ns ms : List (Nat × α)} (ha : Owns m a s ns) (hb : Owns m b t ms) :
    ∃ n ns2 ms2, swap a b m = .ok n ∧ Owns n a t ms2 ∧ Owns n b s ns2 ∧
      ns2.map Prod.snd = ns.map Prod.snd ∧ ms2.map Prod.snd = ms.map Prod.snd := by
  by_cases hab : a = b
  · subst hab
    obtain ⟨n, h1, h2, _⟩ := swap_self_owns ha
    have e : (Except.ok (ns.map Prod.snd, s) : Except Fault (List α × Nat)) =
        .ok (ms.map Prod.snd, t) := by
      rw [← observe_owns src ha, ← observe_owns src hb]
    simp only [Except.ok.injEq, Prod.mk.injEq] at e
    obtain ⟨e1, rfl⟩ := e
    exact ⟨n, ns, ns, h1, h2, h2, rfl, e1⟩
  · obtain ⟨n, h1, h2, h3, _⟩ := swap_owns ha hb hab
    exact ⟨n, ns, ms, h1, h2, h3, rfl, rfl⟩

/-- C13: for every two lists `A` and `B`, the member `swap` and the free function
`swap` return and leave the same memory; afterwards `A` shows the former elements and
`GetSize()` of `B`, and `B` those of `A`; a second `swap` returns, and then both lists
show their original elements and sizes again. -/
theorem swap_correct [Inhabited α] (src : Source) (m : Memory α) (a b s t : Nat)
    (ns ms : List (Nat × α)) (ha : Owns m a s ns) (hb : Owns m b t ms) :
    observe src a m = .ok (ns.map Prod.snd, s) ∧ observe src b m = .ok (ms.map Prod.snd, t) ∧
    ∃ n, swap a b m = .ok n ∧ swap_free a b m = .ok n ∧
      observe src a n = .ok (ms.map Prod.snd, t) ∧
      observe src b n = .ok (ns.map Prod.snd, s) ∧
      ∃ k, swap a b n = .ok k ∧ swap_free a b n = .ok k ∧
        observe src a k = .ok (ns.map Prod.snd, s) ∧
        observe src b k = .ok (ms.map Prod.snd, t) := by
  obtain ⟨n, ns2, ms2, h1, h2, h3, e1, e2⟩ := swap_observe src ha hb
  obtain ⟨k, ms3, ns3, h4, h5, h6, e3, e4⟩ := swap_observe src h2 h3
  refine ⟨observe_owns src ha, observe_owns src hb, n, h1, h1, ?_, ?_, k, h4, h4, ?_, ?_⟩
  · rw [observe_owns src h2, e2]
  · rw [observe_owns src h3, e1]
  · rw [observe_owns src h5, e4, e1]
  · rw [observe_owns src h6, e3, e2]

/-- Witness for C13: `{1, 2}` and `{1, 2, 3}`. -/
theorem swap_correct_witness :
    Owns sample_pair 0 2 [(2, 1), (3, 2)] ∧ Owns sample_pair 4 3 [(6, 1), (7, 2), (8, 3)] ∧
    observe .main_cpp 0 sample_pair = .ok ([1, 2], 2) ∧
    observe .main_cpp 4 sample_pair = .ok ([1, 2, 3], 3) ∧
    ∃ n, swap 0 4 sample_pair = .ok n ∧ swap_free 0 4 sample_pair = .ok n ∧
      observe .main_cpp 0 n = .ok ([1, 2, 3], 3) ∧
      observe .main_cpp 4 n = .ok ([1, 2], 2) ∧
      ∃ k, swap 0 4 n = .ok k ∧ swap_free 0 4 n = .ok k ∧
        observe .main_cpp 0 k = .ok ([1, 2], 2) ∧
        observe .main_cpp 4 k = .ok ([1, 2, 3], 3) :=
  ⟨by decide, by decide,
    swap_correct .main_cpp sample_pair 0 4 2 3 [(2, 1), (3, 2)] [(6, 1), (7, 2), (8, 3)]
      (by decide) (by decide)⟩

/-! ## InsertAfter followed by EraseAfter (C20) -/

/-- C20: in a list holding `x0 .. x(n-1)`, for the position `pos` reached from
`before_begin()` by `k ≤ n` increments and every value `v`, `InsertAfter(pos, v)` and
then `EraseAfter(pos)` both return; afterwards the list holds `x0 .. x(n-1)` again, in the
same order, and the iterator returned by `EraseAfter` is the one that followed `pos`
before the two calls: it dereferences to `xk`, or it is `end()` when `k = n`. -/
theorem InsertAfter_EraseAfter_round_trip [Inhabited α] (src : Source) (m : Memory α)
    (this s : Nat) (ns : List (Nat × α)) (k : Nat) (pos : BasicIterator) (v : α)
    (hown : Owns m this s ns) (hk : k ≤ ns.length)
    (hpos : advance src k (before_begin this) m = .ok pos) :
    elements src this m = .ok (ns.map Prod.snd) ∧
    ∃ it n ret r, InsertAfter src this pos v m = .ok (it, n) ∧
      EraseAfter src this pos n = .ok (ret, r) ∧
      elements src this r = .ok (ns.map Prod.snd) ∧
      operator_pre_inc src pos m = .ok ret ∧
      (∀ x, (ns.map Prod.snd)[k]? = some x → operator_deref src ret r = .ok x) ∧
      (k = ns.length → ret = end_) := by
  have hp := pos_of_advance hown (by omega) hpos
  subst hp
  obtain ⟨n, h1, h2, _⟩ := InsertAfter_at src hown k hk v
  have hlen : (ns.take k).length = k := by simp [hk]
  have hlt : k < (ns.take k ++ (m.length, v) :: ns.drop k).length := by
    simp only [List.length_append, hlen, List.length_cons]; omega
  have ha : (addrs this (ns.take k ++ (m.length, v) :: ns.drop k))[k]? = (addrs this ns)[k]? := by
    cases k with
    | zero => rw [addrs_zero, addrs_zero]
    | succ j =>
      rw [addrs_succ, addrs_succ, List.getElem?_map, List.getElem?_map,
        List.getElem?_append_left (by rw [hlen]; omega), List.getElem?_take_of_lt (by omega)]
  have hd1 : (ns.take k ++ (m.length, v) :: ns.drop k).drop (k + 1) = ns.drop k := by
    have e : ns.take k ++ (m.length, v) :: ns.drop k =
        (ns.take k ++ [(m.length, v)]) ++ ns.drop k := by simp
    rw [e, List.drop_left' (by simp [hlen])]
  have he : (ns.take k ++ (m.length, v) :: ns.drop k).eraseIdx k = ns := by
    rw [List.eraseIdx_eq_take_drop_succ, hd1, List.take_left' hlen, List.take_append_drop]
  obtain ⟨r, h3, h4, _, _⟩ := EraseAfter_at src h2 k hlt
  rw [ha, hd1] at h3
  rw [he] at h4
  refine ⟨elements_owns src hown, _, n, _, r, h1, h3, elements_owns src h4,
    pre_inc_at src hown k hk, fun x hx => deref_at src h4 k x hx, fun hkn => ?_⟩
  rw [List.drop_of_length_le (by omega)]
  rfl

/-- Witness for C20: on `{1, 2, 3}`, `InsertAfter(begin(), 9)` and then
`EraseAfter(begin())`. -/
theorem InsertAfter_EraseAfter_round_trip_witness :
    Owns sample 0 3 [(2, 1), (3, 2), (4, 3)] ∧
    advance .main_cpp 1 (before_begin 0) sample = .ok ⟨some 2⟩ ∧
    elements .main_cpp 0 sample = .ok [1, 2, 3] ∧
    ∃ it n ret r, InsertAfter .main_cpp 0 ⟨some 2⟩ 9 sample = .ok (it, n) ∧
      EraseAfter .main_cpp 0 ⟨some 2⟩ n = .ok (ret, r) ∧
      elements .main_cpp 0 r = .ok [1, 2, 3] ∧
      operator_pre_inc .main_cpp ⟨some 2⟩ sample = .ok ret ∧
      (∀ x, [1, 2, 3][1]? = some x → operator_deref .main_cpp ret r = .ok x) ∧
      (1 = 3 → ret = end_) :=
  ⟨by decide, rfl,
    InsertAfter_EraseAfter_round_trip .main_cpp sample 0 3 [(2, 1), (3, 2), (4, 3)] 1
      ⟨some 2⟩ 9 (by decide) (by decide) rfl⟩

/-! ## EraseAfter at a position without successor (C17) -/

theorem load_null (m : Memory α) : load m none = .error .null_deref := rfl

theorem EraseAfter_last_null_deref [Inhabited α] (src : Source) {m : Memory α} {this s : Nat}
    {ns : List (Nat × α)} (h : Owns m this s ns) :
    EraseAfter src this ⟨(addrs this ns)[ns.length]?⟩ m = .error .null_deref := by
  rcases List.eq_nil_or_concat ns with rfl | ⟨pre, x, hx⟩
  · rw [addrs_last_nil]
    cases src <;>
      simp [EraseAfter, Source.assert, SLL.assert, load_list h.1, ok_bind, linkTo_nil, load_null,
        error_bind]
  · rw [List.concat_eq_append] at hx
    subst hx
    rw [addrs_last_concat]
    have h' : Owns m this s (pre ++ x :: []) := h
    have hc := (owns_split h').2.1
    cases src <;>
      simp [EraseAfter, Source.assert, SLL.assert, load_node hc, ok_bind, linkTo_nil, load_null,
        error_bind]

/-- C17 evaluated on the code: in `main.cpp`, `EraseAfter(begin())` on the list `{7}`,
whose only element has no successor, and `EraseAfter(before_begin())` on the empty list
pass the only assertion of `EraseAfter` (`pos.node_ != nullptr`) and then dereference the
null successor; only `EraseAfter(end())` is stopped by the assertion. -/
theorem EraseAfter_past_last_not_asserted :
    (∃ l m b, SingleLinkedList_values .main_cpp [7] ([] : Memory Nat) = .ok (l, m) ∧
      begin_ l m = .ok b ∧ Source.assert .main_cpp (b.node_ != none) = .ok () ∧
      EraseAfter .main_cpp l b m = .error .null_deref ∧
      EraseAfter .main_cpp l end_ m = .error .assertion) ∧
    (∃ l m, SingleLinkedList_values .main_cpp [] ([] : Memory Nat) = .ok (l, m) ∧
      Source.assert .main_cpp ((before_begin l).node_ != none) = .ok () ∧
      EraseAfter .main_cpp l (before_begin l) m = .error .null_deref) :=
  ⟨⟨_, _, _, rfl, rfl, rfl, rfl, rfl⟩, ⟨_, _, rfl, rfl, rfl⟩⟩

/-! ## The constructors of the two files (C19) -/

/-- C19: for every sequence of initial values and for every source list `S`, the
constructor from values and the copy constructor of `single-linked-list.h` return, as
those of `main.cpp` do, and the lists built by the two files show the same elements in
the same order and the same `GetSize()`: the initial values and their number,
respectively the elements of `S` and their number.  Both numbers are `size_t` values
(`hlen`, `hsz`): `std::initializer_list::size()` returns one, and the nodes of `S` are
distinct objects. -/
theorem constructors_agree [Inhabited α] (m : Memory α) (values : List α) (S s : Nat)
    (ns : List (Nat × α)) (hS : Owns m S s ns) (hlen : values.length ≤ SIZE_MAX)
    (hsz : ns.length ≤ SIZE_MAX) :
    (∃ a n b k, SingleLinkedList_values .main_cpp values m = .ok (a, n) ∧
      SingleLinkedList_values .single_linked_list_h values m = .ok (b, k) ∧
      observe .main_cpp a n = .ok (values, values.length) ∧
      observe .single_linked_list_h b k = .ok (values, values.length)) ∧
    (∃ a n b k, SingleLinkedList_copy .main_cpp S m = .ok (a, n) ∧
      SingleLinkedList_copy .single_linked_list_h S m = .ok (b, k) ∧
      observe .main_cpp a n = .ok (ns.map Prod.snd, ns.length) ∧
      observe .single_linked_list_h b k = .ok (ns.map Prod.snd, ns.length)) := by
  constructor
  · obtain ⟨n, l1, h1, h2, h3, _⟩ := values_owns .main_cpp values m hlen
    obtain ⟨k, l2, h4, h5, h6, _⟩ := values_owns .single_linked_list_h values m hlen
    refine ⟨_, n, _, k, h1, h4, ?_, ?_⟩
    · rw [observe_owns _ h2, h3]
    · rw [observe_owns _ h5, h6]
  · obtain ⟨n, l1, h1, h2, h3, _⟩ := copy_owns .main_cpp hS hsz
    obtain ⟨k, l2, h4, h5, h6, _⟩ := copy_owns .single_linked_list_h hS hsz
    refine ⟨_, n, _, k, h1, h4, ?_, ?_⟩
    · rw [observe_owns _ h2, h3]
    · rw [observe_owns _ h5, h6]

/-- Witness for C19: the initial values `[4, 5]` and the source list `{1, 2, 3}`. -/
theorem constructors_agree_witness :
    Owns sample 0 3 [(2, 1), (3, 2), (4, 3)] ∧ [4, 5].length ≤ SIZE_MAX ∧
    [(2, 1), (3, 2), (4, 3)].length ≤ SIZE_MAX ∧
    (∃ a n b k, SingleLinkedList_values .main_cpp [4, 5] sample = .ok (a, n) ∧
      SingleLinkedList_values .single_linked_list_h [4, 5] sample = .ok (b, k) ∧
      observe .main_cpp a n = .ok ([4, 5], 2) ∧
      observe .single_linked_list_h b k = .ok ([4, 5], 2)) ∧
    (∃ a n b k, SingleLinkedList_copy .main_cpp 0 sample = .ok (a, n) ∧
      SingleLinkedList_copy .single_linked_list_h 0 sample = .ok (b, k) ∧
      observe .main_cpp a n = .ok ([1, 2, 3], 3) ∧
      observe .single_linked_list_h b k = .ok ([1, 2, 3], 3)) :=
  ⟨by decide, by decide, by decide,
    constructors_agree sample [4, 5] 0 3 [(2, 1), (3, 2), (4, 3)] (by decide) (by decide)
      (by decide)⟩

/-! ## Assignment (C12) -/

theorem assign_owns [Inhabited α] (src : Source) {m : Memory α} {this rhs s t : Nat}
    {ns ms : List (Nat × α)} (ha : Owns m this s ns) (hb : Owns m rhs t ms)
    (hab : this ≠ rhs) (hdis : ∀ x ∈ ns, x.1 ∉ ms.map Prod.fst)
    (hsz : ms.length ≤ SIZE_MAX) :
    ∃ n more, operator_assign src this rhs m = .ok n ∧ Owns n this ms.length more ∧
      more.map Prod.snd = ms.map Prod.snd ∧ Owns n rhs t ms := by
  have hal := owns_this_lt ha
  have hbl := owns_this_lt hb
  obtain ⟨m1, more, h1, h2, h3, h4, h5⟩ := copy_owns src hb hsz
  have ha1 : Owns m1 this s ns := owns_frame ha h5 (by simp) (by simp)
  have hb1 : Owns m1 rhs t ms := owns_frame hb h5 (by simp) (by simp)
  obtain ⟨m2, h6, h7, h8, h9, _⟩ := swap_owns ha1 h2 (by omega)
  have hb2 : Owns m2 rhs t ms := owns_frame hb1 h9
    (by simp only [List.mem_cons, List.mem_singleton, List.not_mem_nil, or_false, not_or]
        exact ⟨fun h => hab h.symm, by omega⟩)
    (fun x hx hc => by
      simp only [List.mem_cons, List.mem_singleton, List.not_mem_nil, or_false] at hc
      rcases hc with hc | hc
      · exact list_ne_node ha.1 hb.2.1 hx hc.symm
      · have := seg_lt hb.2.1 hx
        omega)
  obtain ⟨m3, h10, h11, _⟩ := destroy_owns h8
  refine ⟨m3, more, ?_, ?_, h3, ?_⟩
  · have hc : ¬ (src = Source.main_cpp ∧ rhs = this) := fun h => hab h.2.symm
    simp only [operator_assign, hc, if_false, h1, ok_bind, h6]
    exact h10
  · refine owns_frame h7 h11 (not_mem_addrs (by omega) (fun x hx => (owns_ne ha hx).symm))
      (fun x hx => not_mem_addrs (by have := h4 x hx; omega) (fun y hy => ?_))
    have := h4 x hx
    have := seg_lt ha.2.1 hy
    omega
  · refine owns_frame hb2 h11 (not_mem_addrs (by omega) (fun x hx => list_ne_node hb.1 ha.2.1 hx))
      (fun x hx => not_mem_addrs (by have := seg_lt hb.2.1 hx; omega) (fun y hy he => ?_))
    exact hdis y hy (he ▸ List.mem_map_of_mem _ hx)

theorem assign_self_owns [Inhabited α] (src : Source) {m : Memory α} {this s : Nat}
    {ns : List (Nat × α)} (ha : Owns m this s ns)
    (hsz : src = .single_linked_list_h → ns.length ≤ SIZE_MAX) :
    ∃ n more, operator_assign src this this m = .ok n ∧
      Owns n this (match src with | .main_cpp => s | .single_linked_list_h => ns.length) more ∧
      more.map Prod.snd = ns.map Prod.snd := by
  cases src with
  | main_cpp => exact ⟨m, ns, by simp [operator_assign, pure_eq_ok], ha, rfl⟩
  | single_linked_list_h =>
    have hal := owns_this_lt ha
    obtain ⟨m1, more, h1, h2, h3, h4, h5⟩ := copy_owns .single_linked_list_h ha (hsz rfl)
    have ha1 : Owns m1 this s ns := owns_frame ha h5 (by simp) (by simp)
    obtain ⟨m2, h6, h7, h8, _, _⟩ := swap_owns ha1 h2 (by omega)
    obtain ⟨m3, h10, h11, _⟩ := destroy_owns h8
    refine ⟨m3, more, ?_, ?_, h3⟩
    · simp only [operator_assign, reduceCtorEq, false_and, if_false, h1, ok_bind, h6]
      exact h10
    · refine owns_frame h7 h11 (not_mem_addrs (by omega) (fun x hx => (owns_ne ha hx).symm))
        (fun x hx => not_mem_addrs (by have := h4 x hx; omega) (fun y hy => ?_))
      have := h4 x hx
      have := seg_lt ha.2.1 hy
      omega

/-- C12 as stated fails on the code: when `B` is the list constructed from `{7}` and
subjected to `EraseAfter(before_begin())`, so that `B.GetSize() == 1`, and `A` is a
default-constructed list, `A = B` leaves `A.GetSize() == 0`, in both source files; and
in `single-linked-list.h` the self-assignment `B = B` changes `B.GetSize()` from 1 to 0. -/
theorem assign_size_differs :
    (∃ B m it n k, SingleLinkedList_values .main_cpp [7] ([] : Memory Nat) = .ok (B, m) ∧
      EraseAfter .main_cpp B (before_begin B) m = .ok (it, n) ∧
      operator_assign .main_cpp (SingleLinkedList n).1 B (SingleLinkedList n).2 = .ok k ∧
      GetSize B k = .ok 1 ∧ GetSize (SingleLinkedList n).1 k = .ok 0) ∧
    (∃ B m it n k,
      SingleLinkedList_values .single_linked_list_h [7] ([] : Memory Nat) = .ok (B, m) ∧
      EraseAfter .single_linked_list_h B (before_begin B) m = .ok (it, n) ∧
      operator_assign .single_linked_list_h (SingleLinkedList n).1 B (SingleLinkedList n).2 =
        .ok k ∧
      GetSize B k = .ok 1 ∧ GetSize (SingleLinkedList n).1 k = .ok 0) ∧
    (∃ B m it n k,
      SingleLinkedList_values .single_linked_list_h [7] ([] : Memory Nat) = .ok (B, m) ∧
      EraseAfter .single_linked_list_h B (before_begin B) m = .ok (it, n) ∧
      operator_assign .single_linked_list_h B B n = .ok k ∧
      GetSize B n = .ok 1 ∧ GetSize B k = .ok 0) :=
  ⟨⟨_, _, _, _, _, rfl, rfl, rfl, rfl, rfl⟩, ⟨_, _, _, _, _, rfl, rfl, rfl, rfl, rfl⟩,
    ⟨_, _, _, _, _, rfl, rfl, rfl, rfl, rfl⟩⟩

/-- C12, amended: on every list `A`, the self-assignment `A = A` returns and leaves the
elements of `A` as they were, in both source files; `GetSize()` is as before in
`main.cpp`, which returns at once, and is the number of elements, a `size_t`, after the
copy and swap of `single-linked-list.h`.  For every list `B` other than `A`, which
shares no node with `A` and whose number of elements is a `size_t`, `A = B` returns in
either source file; afterwards `A` holds the elements of `B` in the order of `B`, with
`GetSize()` equal to their number, and `B` shows the same elements and size as
before. -/
theorem operator_assign_correct [Inhabited α] (src : Source) (m : Memory α)
    (A s : Nat) (ns : List (Nat × α)) (hA : Owns m A s ns) :
    observe src A m = .ok (ns.map Prod.snd, s) ∧
    (∃ k, operator_assign .main_cpp A A m = .ok k ∧
      observe .main_cpp A k = .ok (ns.map Prod.snd, s)) ∧
    (ns.length ≤ SIZE_MAX →
      ∃ k, operator_assign .single_linked_list_h A A m = .ok k ∧
        observe .single_linked_list_h A k = .ok (ns.map Prod.snd, ns.length)) ∧
    (∀ (B t : Nat) (ms : List (Nat × α)), Owns m B t ms → A ≠ B →
      (∀ x ∈ ns, x.1 ∉ ms.map Prod.fst) → ms.length ≤ SIZE_MAX →
      observe src B m = .ok (ms.map Prod.snd, t) ∧
      ∃ n, operator_assign src A B m = .ok n ∧
        observe src A n = .ok (ms.map Prod.snd, ms.length) ∧
        observe src B n = .ok (ms.map Prod.snd, t)) := by
  refine ⟨observe_owns src hA, ?_, fun hlen => ?_, fun B t ms hB hAB hdis hlen => ?_⟩
  · obtain ⟨k, more, h5, h6, h7⟩ := assign_self_owns .main_cpp hA (fun h => by cases h)
    refine ⟨k, h5, ?_⟩
    rw [observe_owns .main_cpp h6, h7]
  · obtain ⟨k, more, h5, h6, h7⟩ := assign_self_owns .single_linked_list_h hA (fun _ => hlen)
    refine ⟨k, h5, ?_⟩
    rw [observe_owns .single_linked_list_h h6, h7]
  · obtain ⟨n, more, h1, h2, h3, h4⟩ := assign_owns src hA hB hAB hdis hlen
    refine ⟨observe_owns src hB, n, h1, ?_, observe_owns src h4⟩
    rw [observe_owns src h2, h3]

/-- Witness for C12: `A = {1, 2}` and `B = {1, 2, 3}` in `single-linked-list.h`. -/
theorem operator_assign_correct_witness :
    Owns sample_pair 0 2 [(2, 1), (3, 2)] ∧
    observe .single_linked_list_h 0 sample_pair = .ok ([1, 2], 2) ∧
    (∃ k, operator_assign .main_cpp 0 0 sample_pair = .ok k ∧
      observe .main_cpp 0 k = .ok ([1, 2], 2)) ∧
    (∃ k, operator_assign .single_linked_list_h 0 0 sample_pair = .ok k ∧
      observe .single_linked_list_h 0 k = .ok ([1, 2], 2)) ∧
    Owns sample_pair 4 3 [(6, 1), (7, 2), (8, 3)] ∧
    observe .single_linked_list_h 4 sample_pair = .ok ([1, 2, 3], 3) ∧
    ∃ n, operator_assign .single_linked_list_h 0 4 sample_pair = .ok n ∧
      observe .single_linked_list_h 0 n = .ok ([1, 2, 3], 3) ∧
      observe .single_linked_list_h 4 n = .ok ([1, 2, 3], 3) :=
  have h := operator_assign_correct .single_linked_list_h sample_pair 0 2 [(2, 1), (3, 2)]
    (by decide)
  ⟨by decide, h.1, h.2.1, h.2.2.1 (by decide), by decide,
    h.2.2.2 4 3 [(6, 1), (7, 2), (8, 3)] (by decide) (by decide) (by decide) (by decide)⟩

end SLL
